import Mathlib

/-!
Shallow embedding of the minesweeper rules engine in `src/game.rs`
(`Position`, `Tile`, `Board`, `Engine`), together with proofs about the
claims of the specification.

Modelling conventions:
* Rust `i32` coordinates become `Int`; `usize` quantities become `Nat`.
* `as usize` on an `i32` wraps modulo `2^64`, modelled by `usizeCast`.
* The random source of `insert_bombs` is an explicit list of samples
  (`List Nat`); each sample `s` stands for the draw `s % (width*height)`
  of `rng.random_range(0..width*height)`.  The non-terminating rejection
  loop is modelled by returning `none` when the sample list is exhausted.
* The work-queue loop of `reveal_tile` is run with explicit fuel; the
  termination theorem shows the chosen fuel always suffices on
  well-formed boards.
* Rust list indexing `tiles[idx]` panics when `idx ≥ len`; the model is
  applied at in-bounds indices (the panic condition itself is exposed as
  `Engine.accessOutOfGrid` for the out-of-bounds claims), using `getD`
  with a default tile where Rust would panic.
-/

/-- Rust: `pub struct Position(pub i32, pub i32)`. Field `x` is `.0`, `y` is `.1`. -/
structure Position where
  x : Int
  y : Int
deriving DecidableEq, Repr

/-- Rust `as usize` applied to an `i32` value: wrap into `[0, 2^64)`. -/
def usizeCast (z : Int) : Nat := (z % (2 ^ 64 : Int)).toNat

/-- Rust: `Position::from_index` — `x = index % width`, `y = index / width`. -/
def Position.from_index (index : Nat) (board_width : Nat) : Position :=
  ⟨(index % board_width : Nat), (index / board_width : Nat)⟩

/-- Rust: `Position::to_index` — `self.1 as usize * board_width + self.0 as usize`
(unchecked: no bounds validation). -/
def Position.to_index (p : Position) (board_width : Nat) : Nat :=
  usizeCast p.y * board_width + usizeCast p.x

/-- Rust: `const ADJACENT_OFFSETS: [Position; 8]`. -/
def ADJACENT_OFFSETS : List Position :=
  [⟨-1, -1⟩, ⟨0, -1⟩, ⟨1, -1⟩, ⟨1, 0⟩, ⟨1, 1⟩, ⟨0, 1⟩, ⟨-1, 1⟩, ⟨-1, 0⟩]

/-- Rust: `impl Add for Position` (componentwise). -/
def Position.add (p q : Position) : Position := ⟨p.x + q.x, p.y + q.y⟩

/-- Rust: `enum TileState { Revealed, Block(bool) }` — the `Bool` is the flag. -/
inductive TileState where
  | Revealed : TileState
  | Block : Bool → TileState
deriving DecidableEq, Repr

/-- Rust: `struct Tile`. -/
structure Tile where
  state : TileState
  has_bomb : Bool
  adjacent_bombs : Nat
deriving DecidableEq, Repr

/-- The tile value every cell starts with (see `Board::create_tiles`);
also used as the `getD` default standing in for Rust's indexing panic. -/
def Tile.initial : Tile := ⟨TileState.Block false, false, 0⟩

instance : Inhabited Tile := ⟨Tile.initial⟩

/-- Rust: `Tile::is_bomb`. -/
def Tile.is_bomb (t : Tile) : Bool := t.has_bomb

/-- Rust: `Tile::num_adjacent_bombs`. -/
def Tile.num_adjacent_bombs (t : Tile) : Nat := t.adjacent_bombs

/-- Rust: `Tile::no_adjacent_bombs`. -/
def Tile.no_adjacent_bombs (t : Tile) : Bool := t.adjacent_bombs == 0

/-- Rust: `Tile::is_flagged`. -/
def Tile.is_flagged (t : Tile) : Bool :=
  match t.state with
  | TileState.Block true => true
  | _ => false

/-- Rust: `Tile::is_revealed`. -/
def Tile.is_revealed (t : Tile) : Bool := t.state == TileState.Revealed

/-- Rust: `struct Board`.  `num_bombs` is an `i32` holding a cast `usize`
bomb count; it is modelled as the `Nat` it holds. -/
structure Board where
  width : Nat
  height : Nat
  tiles : List Tile
  tiles_left : Nat
  num_bombs : Nat
deriving DecidableEq, Repr

/-- Rust: `Board::new` followed by `create_tiles` (the constructor calls
`create_tiles`, and `Engine::new` calls it once more; both produce the
same fresh grid of `width*height` initial tiles). -/
def Board.new (width height num_bombs : Nat) : Board :=
  { width := width
    height := height
    tiles := List.replicate (width * height) Tile.initial
    tiles_left := width * height
    num_bombs := num_bombs }

/-- Rust `as i32` applied to a `usize` value: truncate to the low 32
bits, then interpret as two's-complement signed. -/
def i32Cast (n : Nat) : Int :=
  if n % 2 ^ 32 < 2 ^ 31 then ((n % 2 ^ 32 : Nat) : Int)
  else ((n % 2 ^ 32 : Nat) : Int) - 2 ^ 32

/-- Rust: `Board::position_out_of_bounds` — the comparisons are against
the truncating casts `self.width as i32` / `self.height as i32`. -/
def Board.position_out_of_bounds (b : Board) (pos : Position) : Bool :=
  pos.x < 0 || pos.x ≥ i32Cast b.width || pos.y < 0 || pos.y ≥ i32Cast b.height

/-- The safe positions built at the top of `Board::insert_bombs`:
`safe_position` itself plus each `safe_position + offset` that passes
the source's bounds check against `self.width as i32` /
`self.height as i32` (truncating casts). -/
def Board.safe_positions (b : Board) (safe_position : Position) : List Position :=
  safe_position ::
    (ADJACENT_OFFSETS.map (fun off => safe_position.add off)).filter
      (fun pos => 0 ≤ pos.x && pos.x < i32Cast b.width
        && 0 ≤ pos.y && pos.y < i32Cast b.height)

/-- The rejection-sampling loop of `Board::insert_bombs`: place `need`
more bombs, drawing indices from `samples` (`s % wh` models
`rng.random_range(0..wh)`); a draw is rejected when the tile already has
a bomb or lies in the safe set.  `none` models exhausting the random
stream, i.e. the Rust loop not having terminated yet. -/
def insertBombsGo (wh : Nat) (safe_idxs : List Nat) :
    List Tile → Nat → List Nat → Option (List Tile)
  | tiles, 0, _ => some tiles
  | _, _ + 1, [] => none
  | tiles, need + 1, s :: rest =>
      let idx := s % wh
      let tile := tiles.getD idx Tile.initial
      if tile.has_bomb || safe_idxs.contains idx then
        insertBombsGo wh safe_idxs tiles (need + 1) rest
      else
        insertBombsGo wh safe_idxs (tiles.set idx { tile with has_bomb := true }) need rest

/-- Rust: `Board::insert_bombs`. -/
def Board.insert_bombs (b : Board) (safe_position : Position) (samples : List Nat) :
    Option Board :=
  let safe_idxs := (b.safe_positions safe_position).map (fun pos => pos.to_index b.width)
  (insertBombsGo (b.width * b.height) safe_idxs b.tiles b.num_bombs samples).map
    (fun tiles => { b with tiles := tiles })

/-- The inner neighbour count of `Board::calculate_adjacent_bombs`:
bombs among the in-bounds neighbours of `pos`. -/
def Board.count_adjacent (b : Board) (pos : Position) : Nat :=
  ADJACENT_OFFSETS.foldl
    (fun count off =>
      let adj_pos := pos.add off
      if b.position_out_of_bounds adj_pos then count
      else if (b.tiles.getD (adj_pos.to_index b.width) Tile.initial).has_bomb then count + 1
      else count)
    0

/-- One iteration of the `calculate_adjacent_bombs` double loop, at linear
index `idx` (the loop visits `y` outer, `x` inner, i.e. indices in order). -/
def Board.calc_step (b : Board) (idx : Nat) : Board :=
  let tile := b.tiles.getD idx Tile.initial
  if tile.has_bomb then b
  else
    { b with
      tiles := b.tiles.set idx
        { tile with adjacent_bombs := b.count_adjacent (Position.from_index idx b.width) } }

/-- Rust: `Board::calculate_adjacent_bombs`. -/
def Board.calculate_adjacent_bombs (b : Board) : Board :=
  (List.range (b.width * b.height)).foldl Board.calc_step b

/-- The work-queue loop of `Board::reveal_tile`, with explicit fuel.
The queue is FIFO: `pop_front` takes the head, `push_back` appends. -/
def Board.revealLoop : Nat → List Position → Board → Option Board
  | _, [], b => some b
  | 0, _ :: _, _ => none
  | fuel + 1, pos :: queue, b =>
      let idx := pos.to_index b.width
      let tile := b.tiles.getD idx Tile.initial
      if tile.is_revealed || tile.is_flagged then
        Board.revealLoop fuel queue b
      else
        let b' : Board :=
          { b with
            tiles := b.tiles.set idx { tile with state := TileState.Revealed }
            tiles_left := b.tiles_left - 1 }
        if tile.no_adjacent_bombs then
          Board.revealLoop fuel
            (queue ++ (ADJACENT_OFFSETS.map (fun off => pos.add off)).filter
              (fun adj_pos => !(b'.position_out_of_bounds adj_pos)))
            b'
        else
          Board.revealLoop fuel queue b'

/-- Rust: `Board::reveal_tile`.  The fuel `9 * tiles.length + 1` is proved
sufficient (`revealLoop` never returns `none` from it on a well-formed
board, see the cascade termination theorem). -/
def Board.reveal_tile (b : Board) (pos : Position) : Option Board :=
  Board.revealLoop (9 * b.tiles.length + 1) [pos] b

/-- Rust: `enum GameState`. -/
inductive GameState where
  | Lost : GameState
  | Won : GameState
  | InProgress : GameState
  | FirstMove : GameState
deriving DecidableEq, Repr

/-- Rust: `struct Engine`.  `bombs_left` is a signed `i32` counter. -/
structure Engine where
  board : Board
  state : GameState
  bombs_left : Int
deriving DecidableEq, Repr

/-- Rust: `Engine::new` (the `f32` board size is already truncated to
whole tile counts by the caller; modelled directly as `Nat`). -/
def Engine.new (width height num_bombs : Nat) : Engine :=
  { board := Board.new width height num_bombs
    state := GameState.FirstMove
    bombs_left := (num_bombs : Int) }

/-- Rust: `Engine::bombs_left` — the display value, clamped at zero. -/
def Engine.bombs_left_display (e : Engine) : Nat :=
  if e.bombs_left < 0 then 0 else e.bombs_left.toNat

/-- Rust: `Engine::is_lost`. -/
def Engine.is_lost (e : Engine) : Bool := e.state == GameState.Lost

/-- Rust: `Engine::is_won`. -/
def Engine.is_won (e : Engine) : Bool := e.state == GameState.Won

/-- Rust: `Engine::flag`.  The `Revealed` branch writes the tile's state
back unchanged, i.e. it leaves the engine as it was. -/
def Engine.flag (e : Engine) (pos : Position) : Engine :=
  let idx := pos.to_index e.board.width
  let tile := e.board.tiles.getD idx Tile.initial
  match tile.state with
  | TileState.Block n =>
      { e with
        bombs_left := if n then e.bombs_left + 1 else e.bombs_left - 1
        board := { e.board with
                   tiles := e.board.tiles.set idx { tile with state := TileState.Block (!n) } } }
  | TileState.Revealed => e

/-- Rust: `Engine::check_win_condition`. -/
def Engine.check_win_condition (e : Engine) : Engine :=
  if e.board.tiles_left = e.board.num_bombs then { e with state := GameState.Won } else e

/-- The second half of `Engine::reveal` (everything after the first-move
bomb placement): skip revealed/flagged tiles, lose on a bomb, otherwise
cascade and check the win condition. -/
def Engine.revealAfterPlacement (e : Engine) (pos : Position) : Option Engine :=
  let idx := pos.to_index e.board.width
  let tile := e.board.tiles.getD idx Tile.initial
  if tile.is_revealed || tile.is_flagged then some e
  else if tile.is_bomb then
    some { e with
           board := { e.board with
                      tiles := e.board.tiles.set idx { tile with state := TileState.Revealed } }
           state := GameState.Lost }
  else
    (e.board.reveal_tile pos).map
      (fun b => Engine.check_win_condition { e with board := b })

/-- Rust: `Engine::reveal`.  `samples` feeds `insert_bombs` on the first
move; `none` models a first-move bomb placement that has not terminated
on the given random stream. -/
def Engine.reveal (e : Engine) (pos : Position) (samples : List Nat) : Option Engine :=
  if e.is_lost || e.is_won then some e
  else
    (if e.state = GameState.FirstMove then
      (e.board.insert_bombs pos samples).map
        (fun b => { e with board := b.calculate_adjacent_bombs, state := GameState.InProgress })
    else some e).bind
      (fun e1 => e1.revealAfterPlacement pos)

/-- The index arithmetic of a `reveal`/`flag` call reaches Rust's
out-of-bounds indexing panic exactly when the unchecked index is not
below the grid size. -/
def Engine.accessOutOfGrid (e : Engine) (pos : Position) : Bool :=
  e.board.tiles.length ≤ pos.to_index e.board.width

/-- A coordinate is in bounds when `0 ≤ x < width` and `0 ≤ y < height`. -/
def Board.inBounds (b : Board) (pos : Position) : Bool :=
  0 ≤ pos.x && pos.x < (b.width : Int) && 0 ≤ pos.y && pos.y < (b.height : Int)

/-- Number of tiles currently in state `Revealed`. -/
def Board.revealedCount (b : Board) : Nat :=
  (b.tiles.filter (fun t => t.is_revealed)).length

/-- Number of tiles carrying a bomb. -/
def Board.bombCount (b : Board) : Nat :=
  b.tiles.countP (fun t => t.has_bomb)

/-- Well-formedness: the grid really has `width * height` tiles, and the
tile count fits in a `usize` (true of every Rust `Vec`). -/
def Board.WF (b : Board) : Prop :=
  b.tiles.length = b.width * b.height ∧ b.width * b.height < 2 ^ 64

instance (b : Board) : Decidable b.WF :=
  inferInstanceAs (Decidable (_ ∧ _))

/-- Engine states reachable from a fresh `width×height` engine with
`num_bombs` bombs by in-bounds `flag` and `reveal` calls (each `reveal`
carries its own random sample stream and must terminate). -/
inductive Reachable (w h n : Nat) : Engine → Prop where
  | init : Reachable w h n (Engine.new w h n)
  | flagMove {e : Engine} (pos : Position) :
      Reachable w h n e → e.board.inBounds pos = true → Reachable w h n (e.flag pos)
  | revealMove {e e' : Engine} (pos : Position) (samples : List Nat) :
      Reachable w h n e → e.board.inBounds pos = true →
      e.reveal pos samples = some e' → Reachable w h n e'

/-! Concrete scenario states used by the correction witnesses below. -/

/-- The 3×3 board of the cascade-correctness scenario: its only bomb is
fixed at coordinate `(1,1)` (linear index 4) and adjacency is computed. -/
def c1board : Board :=
  ({ Board.new 3 3 1 with
     tiles := (Board.new 3 3 1).tiles.set 4 { Tile.initial with has_bomb := true } }).calculate_adjacent_bombs

/-- The engine owning `c1board`, mid-game. -/
def c1engine : Engine :=
  { board := c1board, state := GameState.InProgress, bombs_left := 1 }

/-- A lost game reached by real calls: on a fresh 5×1 board with one
bomb, the first reveal at `(0,0)` (bomb drawn at index 3) reveals three
tiles, then revealing the bomb at `(3,0)` loses. -/
def lostRun : Option Engine :=
  ((Engine.new 5 1 1).reveal ⟨0, 0⟩ [3]).bind (fun e => e.reveal ⟨3, 0⟩ [])

/-- A fresh board too wide for `i32`: at width `2^31` the truncating
casts in the source's bounds checks turn negative, so the first-click
safe zone degenerates to the clicked tile alone. -/
def c3big : Engine := Engine.new (2 ^ 31) 1 1

/-- The `c3big` board after its single mine lands on index 4, the tile
of coordinate (4,0). -/
def c3bigPlaced : Board :=
  { c3big.board with
    tiles := c3big.board.tiles.set 4 { Tile.initial with has_bomb := true } }

/-- Fresh 5×1 engine with one bomb whose tile `(2,0)` is flagged before
the first reveal. -/
def c10engine : Engine := (Engine.new 5 1 1).flag ⟨2, 0⟩

/-- The board of `c10engine` after first-move bomb placement with the
sample stream `[0]` (bomb drawn at index 0). -/
def c10placed : Board :=
  (c10engine.board.insert_bombs ⟨2, 0⟩ [0]).getD (Board.new 0 0 0)

/-! ### Helper lemmas -/

/-- A projection that agrees on the written value passes through `List.set`. -/
theorem map_set_proj {α : Type} (f : Tile → α) (l : List Tile) (i : Nat) (a : Tile)
    (h : f a = f (l.getD i Tile.initial)) :
    (l.set i a).map f = l.map f := by
  by_cases hi : i < l.length
  · rw [List.map_set]
    apply List.ext_getElem?
    intro j
    by_cases hj : j = i
    · subst hj
      rw [List.getElem?_set_self (by simpa using hi)]
      rw [List.getElem?_map, List.getElem?_eq_getElem hi]
      simp [h, List.getD_eq_getElem?_getD, List.getElem?_eq_getElem hi]
    · rw [List.getElem?_set_ne (fun hc => hj hc.symm)]
  · rw [List.set_eq_of_length_le (Nat.le_of_not_lt hi)]

/-- Lists with equal projections have equal projections at every `getD`. -/
theorem proj_getD_of_map_eq {α : Type} (f : Tile → α) {l l' : List Tile}
    (h : l.map f = l'.map f) (i : Nat) (d : Tile) :
    f (l.getD i d) = f (l'.getD i d) := by
  have hlen : l.length = l'.length := by
    have := congrArg List.length h; simpa using this
  have hm : (l.map f)[i]? = (l'.map f)[i]? := by rw [h]
  rw [List.getElem?_map, List.getElem?_map] at hm
  rw [List.getD_eq_getElem?_getD, List.getD_eq_getElem?_getD]
  cases hl : l[i]? with
  | none =>
      have : l'.length ≤ i := hlen ▸ (by simpa using hl)
      rw [List.getElem?_eq_none this]
  | some a =>
      have hi : i < l.length := by
        by_contra hc
        rw [List.getElem?_eq_none (Nat.le_of_not_lt hc)] at hl
        exact Option.noConfusion hl
      have hi' : i < l'.length := hlen ▸ hi
      rw [List.getElem?_eq_getElem hi'] at hm ⊢
      rw [hl] at hm
      simpa using hm

/-- `countP` after a `set` at an in-bounds index, phrased with `getD`. -/
theorem countP_set_getD (p : Tile → Bool) (l : List Tile) (i : Nat) (h : i < l.length) (a : Tile) :
    (l.set i a).countP p =
      l.countP p - (if p (l.getD i Tile.initial) then 1 else 0) + (if p a then 1 else 0) := by
  rw [List.countP_set p l i a h]
  congr 1
  rw [List.getD_eq_getElem?_getD, List.getElem?_eq_getElem h]
  rfl

/-- `revealedCount` as a `countP`. -/
theorem revealedCount_eq_countP (b : Board) :
    b.revealedCount = b.tiles.countP (fun t => t.is_revealed) := by
  rw [Board.revealedCount, List.countP_eq_length_filter]

/-- `revealedCount` only depends on the tile states. -/
theorem revealedCount_eq_of_map_state_eq {b b' : Board}
    (h : b.tiles.map Tile.state = b'.tiles.map Tile.state) :
    b.revealedCount = b'.revealedCount := by
  rw [revealedCount_eq_countP, revealedCount_eq_countP]
  have : ∀ t : Tile, t.is_revealed = (fun s => s == TileState.Revealed) t.state := by
    intro t; rfl
  calc b.tiles.countP (fun t => t.is_revealed)
      = b.tiles.countP ((fun s => s == TileState.Revealed) ∘ Tile.state) := rfl
    _ = (b.tiles.map Tile.state).countP (fun s => s == TileState.Revealed) :=
        (List.countP_map _ _ _).symm
    _ = (b'.tiles.map Tile.state).countP (fun s => s == TileState.Revealed) := by rw [h]
    _ = b'.tiles.countP ((fun s => s == TileState.Revealed) ∘ Tile.state) :=
        List.countP_map _ _ _
    _ = b'.tiles.countP (fun t => t.is_revealed) := rfl

/-- Unfolding `inBounds` to a proposition. -/
theorem inBounds_iff (b : Board) (p : Position) :
    b.inBounds p = true ↔
      0 ≤ p.x ∧ p.x < (b.width : Int) ∧ 0 ≤ p.y ∧ p.y < (b.height : Int) := by
  simp [Board.inBounds, and_assoc]

/-- `as i32` is the identity on values below `2^31`. -/
theorem i32Cast_of_lt (n : Nat) (h : n < 2 ^ 31) : i32Cast n = (n : Int) := by
  unfold i32Cast
  have h32 : n % 2 ^ 32 = n := Nat.mod_eq_of_lt (by omega)
  rw [h32, if_pos h]

/-- `as i32` never exceeds the original `usize` value. -/
theorem i32Cast_le (n : Nat) : i32Cast n ≤ (n : Int) := by
  unfold i32Cast
  split <;> omega

/-- Unfolding `position_out_of_bounds` to a proposition. -/
theorem oob_iff (b : Board) (p : Position) :
    b.position_out_of_bounds p = true ↔
      p.x < 0 ∨ i32Cast b.width ≤ p.x ∨ p.y < 0 ∨ i32Cast b.height ≤ p.y := by
  simp [Board.position_out_of_bounds, or_assoc]

/-- A position passing the cascade's (truncated-cast) bounds check is
genuinely in bounds: `as i32` can only shrink the bound. -/
theorem not_oob_imp_inBounds (b : Board) (p : Position)
    (h : (!(b.position_out_of_bounds p)) = true) : b.inBounds p = true := by
  rw [Bool.not_eq_true'] at h
  have hnd : ¬(p.x < 0 ∨ i32Cast b.width ≤ p.x ∨ p.y < 0 ∨ i32Cast b.height ≤ p.y) := by
    intro hd
    have hc := (oob_iff b p).mpr hd
    rw [h] at hc
    exact Bool.noConfusion hc
  push_neg at hnd
  obtain ⟨h1, h2, h3, h4⟩ := hnd
  rw [inBounds_iff]
  have hw := i32Cast_le b.width
  have hh := i32Cast_le b.height
  exact ⟨h1, lt_of_lt_of_le h2 hw, h3, lt_of_lt_of_le h4 hh⟩

/-- `as usize` is the identity on small non-negative values. -/
theorem usizeCast_of_nonneg (z : Int) (h0 : 0 ≤ z) (h : z < 2 ^ 64) :
    usizeCast z = z.toNat := by
  unfold usizeCast
  rw [Int.emod_eq_of_lt h0 h]

/-- `getD` ignores a `set` at a different index. -/
theorem getD_set_ne {α : Type} (l : List α) (i j : Nat) (a d : α) (h : i ≠ j) :
    (l.set j a).getD i d = l.getD i d := by
  rw [List.getD_eq_getElem?_getD, List.getD_eq_getElem?_getD,
    List.getElem?_set_ne (fun hc => h hc.symm)]

/-- For an in-bounds coordinate on a well-formed board, `to_index` is
the row-major index and lies inside the grid. -/
theorem to_index_spec (b : Board) (p : Position) (hwf : b.WF) (hp : b.inBounds p = true) :
    p.to_index b.width = p.y.toNat * b.width + p.x.toNat ∧
      p.to_index b.width < b.tiles.length := by
  obtain ⟨hlen, hsz⟩ := hwf
  rw [inBounds_iff] at hp
  obtain ⟨hx0, hxw, hy0, hyh⟩ := hp
  have hh1 : 0 < b.height := by omega
  have hw1 : 0 < b.width := by omega
  have hwle : b.width ≤ b.width * b.height := Nat.le_mul_of_pos_right _ hh1
  have hhle : b.height ≤ b.width * b.height := Nat.le_mul_of_pos_left _ hw1
  have hx64 : p.x < (2 ^ 64 : Int) := by
    have : ((b.width : Nat) : Int) ≤ ((b.width * b.height : Nat) : Int) := by exact_mod_cast hwle
    have h2 : ((b.width * b.height : Nat) : Int) < ((2 ^ 64 : Nat) : Int) := by exact_mod_cast hsz
    push_cast at h2 ⊢
    omega
  have hy64 : p.y < (2 ^ 64 : Int) := by
    have : ((b.height : Nat) : Int) ≤ ((b.width * b.height : Nat) : Int) := by exact_mod_cast hhle
    have h2 : ((b.width * b.height : Nat) : Int) < ((2 ^ 64 : Nat) : Int) := by exact_mod_cast hsz
    push_cast at h2 ⊢
    omega
  have hxv : usizeCast p.x = p.x.toNat := usizeCast_of_nonneg _ hx0 hx64
  have hyv : usizeCast p.y = p.y.toNat := usizeCast_of_nonneg _ hy0 hy64
  constructor
  · rw [Position.to_index, hxv, hyv]
  · rw [Position.to_index, hxv, hyv, hlen]
    have hxn : p.x.toNat < b.width := by omega
    have hyn : p.y.toNat < b.height := by omega
    calc p.y.toNat * b.width + p.x.toNat
        < p.y.toNat * b.width + b.width := by omega
      _ = (p.y.toNat + 1) * b.width := by ring
      _ ≤ b.height * b.width := Nat.mul_le_mul_right _ (by omega)
      _ = b.width * b.height := Nat.mul_comm _ _

/-- `insertBombsGo` only flips `has_bomb` bits: tile states, adjacency
counts and length are untouched, and indices in the safe set keep their
bomb bit. -/
theorem insertBombsGo_facts (wh : Nat) (safe_idxs : List Nat) :
    ∀ (samples : List Nat) (tiles : List Tile) (need : Nat) (tiles' : List Tile),
      insertBombsGo wh safe_idxs tiles need samples = some tiles' →
      tiles'.map Tile.state = tiles.map Tile.state ∧
      tiles'.map Tile.adjacent_bombs = tiles.map Tile.adjacent_bombs ∧
      tiles'.length = tiles.length ∧
      ∀ i ∈ safe_idxs,
        (tiles'.getD i Tile.initial).has_bomb = (tiles.getD i Tile.initial).has_bomb := by
  intro samples
  induction samples with
  | nil =>
      intro tiles need tiles' h
      cases need with
      | zero =>
          simp only [insertBombsGo, Option.some.injEq] at h
          subst h
          exact ⟨rfl, rfl, rfl, fun i _ => rfl⟩
      | succ n => simp [insertBombsGo] at h
  | cons s rest ih =>
      intro tiles need tiles' h
      cases need with
      | zero =>
          simp only [insertBombsGo, Option.some.injEq] at h
          subst h
          exact ⟨rfl, rfl, rfl, fun i _ => rfl⟩
      | succ n =>
          simp only [insertBombsGo] at h
          split at h
          · exact ih tiles (n + 1) tiles' h
          · rename_i hguard
            obtain ⟨h1, h2, h3, h4⟩ := ih _ n tiles' h
            have hstep : ((tiles.set (s % wh)
                { tiles.getD (s % wh) Tile.initial with has_bomb := true }).map Tile.state)
                = tiles.map Tile.state := map_set_proj _ _ _ _ rfl
            have hstep2 : ((tiles.set (s % wh)
                { tiles.getD (s % wh) Tile.initial with has_bomb := true }).map Tile.adjacent_bombs)
                = tiles.map Tile.adjacent_bombs := map_set_proj _ _ _ _ rfl
            have hnotmem : (s % wh) ∉ safe_idxs := by
              simp only [Bool.or_eq_true, not_or] at hguard
              have hc : safe_idxs.contains (s % wh) = false := by
                cases hcc : safe_idxs.contains (s % wh) with
                | false => rfl
                | true => exact absurd hcc (by simpa using hguard.2)
              simpa using hc
            refine ⟨h1.trans hstep, h2.trans hstep2, h3.trans (List.length_set _ _ _), ?_⟩
            intro i hi
            have hne : i ≠ s % wh := fun hc => hnotmem (hc ▸ hi)
            rw [h4 i hi, getD_set_ne _ _ _ _ _ hne]

/-- A successful `insertBombsGo` places exactly `need` new bombs. -/
theorem insertBombsGo_count (wh : Nat) (safe_idxs : List Nat) :
    ∀ (samples : List Nat) (tiles : List Tile) (need : Nat) (tiles' : List Tile),
      tiles.length = wh → 0 < wh →
      insertBombsGo wh safe_idxs tiles need samples = some tiles' →
      tiles'.countP (fun t => t.has_bomb) = tiles.countP (fun t => t.has_bomb) + need := by
  intro samples
  induction samples with
  | nil =>
      intro tiles need tiles' _ _ h
      cases need with
      | zero =>
          simp only [insertBombsGo, Option.some.injEq] at h
          subst h; rfl
      | succ n => simp [insertBombsGo] at h
  | cons s rest ih =>
      intro tiles need tiles' hlen hwh h
      cases need with
      | zero =>
          simp only [insertBombsGo, Option.some.injEq] at h
          subst h; rfl
      | succ n =>
          simp only [insertBombsGo] at h
          split at h
          · exact ih tiles (n + 1) tiles' hlen hwh h
          · rename_i hguard
            simp only [Bool.or_eq_true, not_or] at hguard
            have hidx : s % wh < tiles.length := by
              rw [hlen]; exact Nat.mod_lt _ hwh
            have hrec := ih _ n tiles'
              ((List.length_set _ _ _).trans hlen) hwh h
            have hold : (tiles.getD (s % wh) Tile.initial).has_bomb = false := by
              cases hh : (tiles.getD (s % wh) Tile.initial).has_bomb with
              | false => rfl
              | true => exact absurd hh (by simpa using hguard.1)
            have hnew : ({ tiles.getD (s % wh) Tile.initial with
                has_bomb := true } : Tile).has_bomb = true := rfl
            rw [hrec, countP_set_getD _ _ _ hidx, hold, hnew]
            have hle : (if false = true then 1 else 0) = 0 := by simp
            have hle2 : (if true = true then 1 else 0) = 1 := by simp
            rw [hle, hle2]
            have hcle : tiles.countP (fun t => t.has_bomb) ≤ tiles.length :=
              List.countP_le_length _
            omega

/-- A successful `insert_bombs` call: states, adjacency, length and
non-tile fields are untouched, safe positions keep their bomb bit, and
exactly `num_bombs` bombs are placed. -/
theorem insert_bombs_facts (b : Board) (safe_position : Position) (samples : List Nat)
    (b' : Board) (h : b.insert_bombs safe_position samples = some b') :
    b'.tiles.map Tile.state = b.tiles.map Tile.state ∧
    b'.tiles.map Tile.adjacent_bombs = b.tiles.map Tile.adjacent_bombs ∧
    b'.tiles.length = b.tiles.length ∧
    b'.width = b.width ∧ b'.height = b.height ∧
    b'.tiles_left = b.tiles_left ∧ b'.num_bombs = b.num_bombs ∧
    (∀ q ∈ b.safe_positions safe_position,
      (b'.tiles.getD (q.to_index b.width) Tile.initial).has_bomb
        = (b.tiles.getD (q.to_index b.width) Tile.initial).has_bomb) := by
  rw [Board.insert_bombs] at h
  cases hg : insertBombsGo (b.width * b.height)
      ((b.safe_positions safe_position).map (fun pos => pos.to_index b.width))
      b.tiles b.num_bombs samples with
  | none => rw [hg] at h; exact absurd h (by simp)
  | some tiles' =>
      rw [hg] at h
      simp only [Option.map_some', Option.some.injEq] at h
      obtain ⟨h1, h2, h3, h4⟩ := insertBombsGo_facts _ _ _ _ _ _ hg
      subst h
      refine ⟨h1, h2, h3, rfl, rfl, rfl, rfl, ?_⟩
      intro q hq
      exact h4 _ (List.mem_map_of_mem _ hq)

/-- A successful `insert_bombs` call on a well-formed nonempty board
places exactly `num_bombs` bombs. -/
theorem insert_bombs_count (b : Board) (safe_position : Position) (samples : List Nat)
    (b' : Board) (hlen : b.tiles.length = b.width * b.height) (hwh : 0 < b.width * b.height)
    (h : b.insert_bombs safe_position samples = some b') :
    b'.bombCount = b.bombCount + b.num_bombs := by
  rw [Board.insert_bombs] at h
  cases hg : insertBombsGo (b.width * b.height)
      ((b.safe_positions safe_position).map (fun pos => pos.to_index b.width))
      b.tiles b.num_bombs samples with
  | none => rw [hg] at h; exact absurd h (by simp)
  | some tiles' =>
      rw [hg] at h
      simp only [Option.map_some', Option.some.injEq] at h
      subst h
      exact insertBombsGo_count _ _ _ _ _ _ hlen hwh hg

/-- `calc_step` only rewrites one adjacency count. -/
theorem calc_step_facts (b : Board) (idx : Nat) :
    (b.calc_step idx).tiles.map Tile.state = b.tiles.map Tile.state ∧
    (b.calc_step idx).tiles.map Tile.has_bomb = b.tiles.map Tile.has_bomb ∧
    (b.calc_step idx).width = b.width ∧ (b.calc_step idx).height = b.height ∧
    (b.calc_step idx).tiles_left = b.tiles_left ∧ (b.calc_step idx).num_bombs = b.num_bombs := by
  rw [Board.calc_step]
  split
  · exact ⟨rfl, rfl, rfl, rfl, rfl, rfl⟩
  · exact ⟨map_set_proj _ _ _ _ rfl, map_set_proj _ _ _ _ rfl, rfl, rfl, rfl, rfl⟩

/-- `calculate_adjacent_bombs` only rewrites adjacency counts. -/
theorem calculate_adjacent_bombs_facts (b : Board) :
    (b.calculate_adjacent_bombs).tiles.map Tile.state = b.tiles.map Tile.state ∧
    (b.calculate_adjacent_bombs).tiles.map Tile.has_bomb = b.tiles.map Tile.has_bomb ∧
    (b.calculate_adjacent_bombs).width = b.width ∧
    (b.calculate_adjacent_bombs).height = b.height ∧
    (b.calculate_adjacent_bombs).tiles_left = b.tiles_left ∧
    (b.calculate_adjacent_bombs).num_bombs = b.num_bombs := by
  rw [Board.calculate_adjacent_bombs]
  generalize List.range (b.width * b.height) = l
  induction l generalizing b with
  | nil => exact ⟨rfl, rfl, rfl, rfl, rfl, rfl⟩
  | cons i rest ih =>
      obtain ⟨s1, s2, s3, s4, s5, s6⟩ := calc_step_facts b i
      obtain ⟨r1, r2, r3, r4, r5, r6⟩ := ih (b.calc_step i)
      exact ⟨r1.trans s1, r2.trans s2, r3.trans s3, r4.trans s4, r5.trans s5, r6.trans s6⟩

/-- An empty queue ends the cascade at once. -/
theorem revealLoop_nil (fuel : Nat) (b : Board) : Board.revealLoop fuel [] b = some b := by
  cases fuel <;> rfl

/-- No fuel, pending work: the loop is cut off. -/
theorem revealLoop_zero (pos : Position) (queue : List Position) (b : Board) :
    Board.revealLoop 0 (pos :: queue) b = none := rfl

/-- One unfolding of the cascade loop. -/
theorem revealLoop_succ (fuel : Nat) (pos : Position) (queue : List Position) (b : Board) :
    Board.revealLoop (fuel + 1) (pos :: queue) b =
      (if ((b.tiles.getD (pos.to_index b.width) Tile.initial).is_revealed
            || (b.tiles.getD (pos.to_index b.width) Tile.initial).is_flagged) = true then
        Board.revealLoop fuel queue b
      else if (b.tiles.getD (pos.to_index b.width) Tile.initial).no_adjacent_bombs = true then
        Board.revealLoop fuel
          (queue ++ (ADJACENT_OFFSETS.map (fun off => pos.add off)).filter
            (fun adj_pos => !(({ b with
                tiles := b.tiles.set (pos.to_index b.width)
                  { b.tiles.getD (pos.to_index b.width) Tile.initial with
                    state := TileState.Revealed }
                tiles_left := b.tiles_left - 1 } : Board).position_out_of_bounds adj_pos)))
          { b with
            tiles := b.tiles.set (pos.to_index b.width)
              { b.tiles.getD (pos.to_index b.width) Tile.initial with
                state := TileState.Revealed }
            tiles_left := b.tiles_left - 1 }
      else
        Board.revealLoop fuel queue
          { b with
            tiles := b.tiles.set (pos.to_index b.width)
              { b.tiles.getD (pos.to_index b.width) Tile.initial with
                state := TileState.Revealed }
            tiles_left := b.tiles_left - 1 }) := rfl

/-- The cascade never changes dimensions, bomb bits, adjacency counts,
the bomb budget, or the number of tiles. -/
theorem revealLoop_preserves :
    ∀ (fuel : Nat) (q : List Position) (b b' : Board),
      Board.revealLoop fuel q b = some b' →
      b'.width = b.width ∧ b'.height = b.height ∧ b'.num_bombs = b.num_bombs ∧
      b'.tiles.length = b.tiles.length ∧
      b'.tiles.map Tile.has_bomb = b.tiles.map Tile.has_bomb ∧
      b'.tiles.map Tile.adjacent_bombs = b.tiles.map Tile.adjacent_bombs := by
  intro fuel
  induction fuel with
  | zero =>
      intro q b b' h
      cases q with
      | nil =>
          rw [revealLoop_nil] at h
          cases h
          exact ⟨rfl, rfl, rfl, rfl, rfl, rfl⟩
      | cons p rest => rw [revealLoop_zero] at h; exact absurd h (by simp)
  | succ fuel ih =>
      intro q b b' h
      cases q with
      | nil =>
          rw [revealLoop_nil] at h
          cases h
          exact ⟨rfl, rfl, rfl, rfl, rfl, rfl⟩
      | cons pos rest =>
          rw [revealLoop_succ] at h
          by_cases hskip : ((b.tiles.getD (pos.to_index b.width) Tile.initial).is_revealed
              || (b.tiles.getD (pos.to_index b.width) Tile.initial).is_flagged) = true
          · rw [if_pos hskip] at h
            exact ih rest b b' h
          · rw [if_neg hskip] at h
            have hstep : ∀ q' b'',
                Board.revealLoop fuel q'
                  { b with
                    tiles := b.tiles.set (pos.to_index b.width)
                      { b.tiles.getD (pos.to_index b.width) Tile.initial with
                        state := TileState.Revealed }
                    tiles_left := b.tiles_left - 1 } = some b'' →
                b''.width = b.width ∧ b''.height = b.height ∧ b''.num_bombs = b.num_bombs ∧
                b''.tiles.length = b.tiles.length ∧
                b''.tiles.map Tile.has_bomb = b.tiles.map Tile.has_bomb ∧
                b''.tiles.map Tile.adjacent_bombs = b.tiles.map Tile.adjacent_bombs := by
              intro q' b'' h'
              obtain ⟨p1, p2, p3, p4, p5, p6⟩ := ih q' _ b'' h'
              refine ⟨p1, p2, p3, p4.trans (List.length_set _ _ _), ?_, ?_⟩
              · exact p5.trans (map_set_proj _ _ _ _ rfl)
              · exact p6.trans (map_set_proj _ _ _ _ rfl)
            by_cases hcas :
                (b.tiles.getD (pos.to_index b.width) Tile.initial).no_adjacent_bombs = true
            · rw [if_pos hcas] at h
              exact hstep _ _ h
            · rw [if_neg hcas] at h
              exact hstep _ _ h

/-- Along the cascade, `revealedCount + tiles_left` stays equal to
`width * height`: each processed tile either skips, or trades one
concealed tile for one revealed tile. -/
theorem revealLoop_countInv :
    ∀ (fuel : Nat) (q : List Position) (b b' : Board),
      b.WF → b.revealedCount + b.tiles_left = b.width * b.height →
      (∀ p ∈ q, b.inBounds p = true) →
      Board.revealLoop fuel q b = some b' →
      b'.revealedCount + b'.tiles_left = b'.width * b'.height := by
  intro fuel
  induction fuel with
  | zero =>
      intro q b b' hwf hcnt hq h
      cases q with
      | nil => rw [revealLoop_nil] at h; cases h; exact hcnt
      | cons p rest => rw [revealLoop_zero] at h; exact absurd h (by simp)
  | succ fuel ih =>
      intro q b b' hwf hcnt hq h
      cases q with
      | nil => rw [revealLoop_nil] at h; cases h; exact hcnt
      | cons pos rest =>
          rw [revealLoop_succ] at h
          by_cases hskip : ((b.tiles.getD (pos.to_index b.width) Tile.initial).is_revealed
              || (b.tiles.getD (pos.to_index b.width) Tile.initial).is_flagged) = true
          · rw [if_pos hskip] at h
            exact ih rest b b' hwf hcnt (fun p hp => hq p (List.mem_cons_of_mem _ hp)) h
          · rw [if_neg hskip] at h
            have hpos : b.inBounds pos = true := hq pos (List.mem_cons_self _ _)
            have hidx : pos.to_index b.width < b.tiles.length :=
              (to_index_spec b pos hwf hpos).2
            have hold : (b.tiles.getD (pos.to_index b.width) Tile.initial).is_revealed
                = false := by
              simp only [Bool.or_eq_true, not_or] at hskip
              cases hh : (b.tiles.getD (pos.to_index b.width) Tile.initial).is_revealed with
              | false => rfl
              | true => exact absurd hh (by simpa using hskip.1)
            have hnew : ({ b.tiles.getD (pos.to_index b.width) Tile.initial with
                state := TileState.Revealed } : Tile).is_revealed = true := rfl
            have hrc2 : (b.tiles.set (pos.to_index b.width)
                  { b.tiles.getD (pos.to_index b.width) Tile.initial with
                    state := TileState.Revealed }).countP (fun t => t.is_revealed)
                = b.tiles.countP (fun t => t.is_revealed) + 1 := by
              rw [countP_set_getD _ _ _ hidx, hold, hnew]
              simp
            have hble : (b.tiles.set (pos.to_index b.width)
                  { b.tiles.getD (pos.to_index b.width) Tile.initial with
                    state := TileState.Revealed }).countP (fun t => t.is_revealed)
                ≤ b.tiles.length := by
              calc (b.tiles.set (pos.to_index b.width)
                    { b.tiles.getD (pos.to_index b.width) Tile.initial with
                      state := TileState.Revealed }).countP (fun t => t.is_revealed)
                  ≤ (b.tiles.set (pos.to_index b.width)
                    { b.tiles.getD (pos.to_index b.width) Tile.initial with
                      state := TileState.Revealed }).length := List.countP_le_length _
                _ = b.tiles.length := List.length_set _ _ _
            have hwf2 : ({ b with
                tiles := b.tiles.set (pos.to_index b.width)
                  { b.tiles.getD (pos.to_index b.width) Tile.initial with
                    state := TileState.Revealed }
                tiles_left := b.tiles_left - 1 } : Board).WF :=
              ⟨(List.length_set _ _ _).trans hwf.1, hwf.2⟩
            have hcnt2 : ({ b with
                tiles := b.tiles.set (pos.to_index b.width)
                  { b.tiles.getD (pos.to_index b.width) Tile.initial with
                    state := TileState.Revealed }
                tiles_left := b.tiles_left - 1 } : Board).revealedCount
                + ({ b with
                tiles := b.tiles.set (pos.to_index b.width)
                  { b.tiles.getD (pos.to_index b.width) Tile.initial with
                    state := TileState.Revealed }
                tiles_left := b.tiles_left - 1 } : Board).tiles_left
                = b.width * b.height := by
              rw [revealedCount_eq_countP]
              show (b.tiles.set (pos.to_index b.width)
                  { b.tiles.getD (pos.to_index b.width) Tile.initial with
                    state := TileState.Revealed }).countP (fun t => t.is_revealed)
                  + (b.tiles_left - 1) = b.width * b.height
              rw [hrc2]
              rw [revealedCount_eq_countP] at hcnt
              rw [hrc2] at hble
              rw [hwf.1] at hble
              omega
            by_cases hcas :
                (b.tiles.getD (pos.to_index b.width) Tile.initial).no_adjacent_bombs = true
            · rw [if_pos hcas] at h
              refine ih _ _ b' hwf2 hcnt2 ?_ h
              intro p hp
              rcases List.mem_append.mp hp with hp1 | hp2
              · exact hq p (List.mem_cons_of_mem _ hp1)
              · have hpred := (List.mem_filter.mp hp2).2
                exact not_oob_imp_inBounds _ _ hpred
            · rw [if_neg hcas] at h
              exact ih rest _ b' hwf2 hcnt2
                (fun p hp => hq p (List.mem_cons_of_mem _ hp)) h

/-- Fuel bound for the cascade: each iteration either consumes a queue
entry or reveals a new tile (at most `tiles.length` of those, each
enqueuing at most 8 neighbours), so `9 * unrevealed + |queue|` fuel
always suffices. -/
theorem revealLoop_term :
    ∀ (fuel : Nat) (q : List Position) (b : Board),
      b.WF → (∀ p ∈ q, b.inBounds p = true) →
      9 * (b.tiles.length - b.revealedCount) + q.length ≤ fuel →
      ∃ b', Board.revealLoop fuel q b = some b' := by
  intro fuel
  induction fuel with
  | zero =>
      intro q b _ _ hfuel
      cases q with
      | nil => exact ⟨b, revealLoop_nil _ _⟩
      | cons p rest => simp at hfuel
  | succ fuel ih =>
      intro q b hwf hq hfuel
      cases q with
      | nil => exact ⟨b, revealLoop_nil _ _⟩
      | cons pos rest =>
          rw [revealLoop_succ]
          by_cases hskip : ((b.tiles.getD (pos.to_index b.width) Tile.initial).is_revealed
              || (b.tiles.getD (pos.to_index b.width) Tile.initial).is_flagged) = true
          · rw [if_pos hskip]
            refine ih rest b hwf (fun p hp => hq p (List.mem_cons_of_mem _ hp)) ?_
            simp only [List.length_cons] at hfuel
            omega
          · rw [if_neg hskip]
            have hpos : b.inBounds pos = true := hq pos (List.mem_cons_self _ _)
            have hidx : pos.to_index b.width < b.tiles.length :=
              (to_index_spec b pos hwf hpos).2
            have hold : (b.tiles.getD (pos.to_index b.width) Tile.initial).is_revealed
                = false := by
              simp only [Bool.or_eq_true, not_or] at hskip
              cases hh : (b.tiles.getD (pos.to_index b.width) Tile.initial).is_revealed with
              | false => rfl
              | true => exact absurd hh (by simpa using hskip.1)
            have hnew : ({ b.tiles.getD (pos.to_index b.width) Tile.initial with
                state := TileState.Revealed } : Tile).is_revealed = true := rfl
            have hrc2 : (b.tiles.set (pos.to_index b.width)
                  { b.tiles.getD (pos.to_index b.width) Tile.initial with
                    state := TileState.Revealed }).countP (fun t => t.is_revealed)
                = b.tiles.countP (fun t => t.is_revealed) + 1 := by
              rw [countP_set_getD _ _ _ hidx, hold, hnew]
              simp
            have hble : b.tiles.countP (fun t => t.is_revealed) + 1 ≤ b.tiles.length := by
              rw [← hrc2]
              calc (b.tiles.set (pos.to_index b.width)
                    { b.tiles.getD (pos.to_index b.width) Tile.initial with
                      state := TileState.Revealed }).countP (fun t => t.is_revealed)
                  ≤ (b.tiles.set (pos.to_index b.width)
                    { b.tiles.getD (pos.to_index b.width) Tile.initial with
                      state := TileState.Revealed }).length := List.countP_le_length _
                _ = b.tiles.length := List.length_set _ _ _
            have hwf2 : ({ b with
                tiles := b.tiles.set (pos.to_index b.width)
                  { b.tiles.getD (pos.to_index b.width) Tile.initial with
                    state := TileState.Revealed }
                tiles_left := b.tiles_left - 1 } : Board).WF :=
              ⟨(List.length_set _ _ _).trans hwf.1, hwf.2⟩
            have hrcb : b.revealedCount = b.tiles.countP (fun t => t.is_revealed) :=
              revealedCount_eq_countP b
            have hrc2' : ({ b with
                tiles := b.tiles.set (pos.to_index b.width)
                  { b.tiles.getD (pos.to_index b.width) Tile.initial with
                    state := TileState.Revealed }
                tiles_left := b.tiles_left - 1 } : Board).revealedCount
                = b.revealedCount + 1 := by
              rw [revealedCount_eq_countP, hrcb]
              exact hrc2
            have hlen2 : ({ b with
                tiles := b.tiles.set (pos.to_index b.width)
                  { b.tiles.getD (pos.to_index b.width) Tile.initial with
                    state := TileState.Revealed }
                tiles_left := b.tiles_left - 1 } : Board).tiles.length
                = b.tiles.length := List.length_set _ _ _
            simp only [List.length_cons] at hfuel
            by_cases hcas :
                (b.tiles.getD (pos.to_index b.width) Tile.initial).no_adjacent_bombs = true
            · rw [if_pos hcas]
              have hnbr : ((ADJACENT_OFFSETS.map (fun off => pos.add off)).filter
                  (fun adj_pos => !(({ b with
                    tiles := b.tiles.set (pos.to_index b.width)
                      { b.tiles.getD (pos.to_index b.width) Tile.initial with
                        state := TileState.Revealed }
                    tiles_left := b.tiles_left - 1 } : Board).position_out_of_bounds
                      adj_pos))).length ≤ 8 := by
                calc ((ADJACENT_OFFSETS.map (fun off => pos.add off)).filter _).length
                    ≤ ((ADJACENT_OFFSETS.map (fun off => pos.add off))).length :=
                      List.length_filter_le _ _
                  _ = 8 := by rw [List.length_map]; rfl
              refine ih _ _ hwf2 ?_ ?_
              · intro p hp
                rcases List.mem_append.mp hp with hp1 | hp2
                · exact hq p (List.mem_cons_of_mem _ hp1)
                · have hpred := (List.mem_filter.mp hp2).2
                  exact not_oob_imp_inBounds _ _ hpred
              · rw [List.length_append, hrc2', hlen2]
                rw [hrcb] at hfuel ⊢
                omega
            · rw [if_neg hcas]
              refine ih rest _ hwf2
                (fun p hp => hq p (List.mem_cons_of_mem _ hp)) ?_
              rw [hrc2', hlen2]
              rw [hrcb] at hfuel ⊢
              omega

/-- Any two successful runs of the cascade loop from the same queue and
board agree, whatever fuel each was given. -/
theorem revealLoop_agree :
    ∀ (f₁ : Nat) (q : List Position) (b : Board) (f₂ : Nat) (b₁ b₂ : Board),
      Board.revealLoop f₁ q b = some b₁ → Board.revealLoop f₂ q b = some b₂ → b₁ = b₂ := by
  intro f₁
  induction f₁ with
  | zero =>
      intro q b f₂ b₁ b₂ h₁ h₂
      cases q with
      | nil =>
          rw [revealLoop_nil] at h₁ h₂
          cases h₁; cases h₂; rfl
      | cons p rest => rw [revealLoop_zero] at h₁; exact absurd h₁ (by simp)
  | succ f ih =>
      intro q b f₂ b₁ b₂ h₁ h₂
      cases q with
      | nil =>
          rw [revealLoop_nil] at h₁ h₂
          cases h₁; cases h₂; rfl
      | cons pos rest =>
          cases f₂ with
          | zero => rw [revealLoop_zero] at h₂; exact absurd h₂ (by simp)
          | succ g =>
              rw [revealLoop_succ] at h₁ h₂
              by_cases hskip : ((b.tiles.getD (pos.to_index b.width) Tile.initial).is_revealed
                  || (b.tiles.getD (pos.to_index b.width) Tile.initial).is_flagged) = true
              · rw [if_pos hskip] at h₁ h₂
                exact ih rest b g b₁ b₂ h₁ h₂
              · rw [if_neg hskip] at h₁ h₂
                by_cases hcas :
                    (b.tiles.getD (pos.to_index b.width) Tile.initial).no_adjacent_bombs = true
                · rw [if_pos hcas] at h₁ h₂
                  exact ih _ _ g b₁ b₂ h₁ h₂
                · rw [if_neg hcas] at h₁ h₂
                  exact ih _ _ g b₁ b₂ h₁ h₂

/-- `reveal_tile` succeeds on every well-formed board and in-bounds
start coordinate: the builtin fuel is enough. -/
theorem reveal_tile_some (b : Board) (pos : Position) (hwf : b.WF)
    (hpos : b.inBounds pos = true) :
    ∃ b', b.reveal_tile pos = some b' := by
  rw [Board.reveal_tile]
  refine revealLoop_term _ [pos] b hwf ?_ ?_
  · intro p hp
    cases hp with
    | head => exact hpos
    | tail _ hh => cases hh
  · have : b.tiles.length - b.revealedCount ≤ b.tiles.length := Nat.sub_le _ _
    simp only [List.length_cons, List.length_nil]
    omega

/-- One unfolding of the post-placement half of `reveal`. -/
theorem revealAfterPlacement_eq (e : Engine) (pos : Position) :
    e.revealAfterPlacement pos =
      (if ((e.board.tiles.getD (pos.to_index e.board.width) Tile.initial).is_revealed
          || (e.board.tiles.getD (pos.to_index e.board.width) Tile.initial).is_flagged)
          = true then
        some e
      else if (e.board.tiles.getD (pos.to_index e.board.width) Tile.initial).is_bomb
          = true then
        some { e with
               board := { e.board with
                          tiles := e.board.tiles.set (pos.to_index e.board.width)
                            { e.board.tiles.getD (pos.to_index e.board.width) Tile.initial with
                              state := TileState.Revealed } }
               state := GameState.Lost }
      else
        (e.board.reveal_tile pos).map
          (fun b => Engine.check_win_condition { e with board := b })) := rfl

/-- A `reveal` in a terminal phase returns the engine unchanged. -/
theorem reveal_terminal (e : Engine) (pos : Position) (samples : List Nat)
    (h : e.state = GameState.Won ∨ e.state = GameState.Lost) :
    e.reveal pos samples = some e := by
  have hc : (e.is_lost || e.is_won) = true := by
    rcases h with h | h <;> simp [Engine.is_lost, Engine.is_won, h]
  rw [Engine.reveal, if_pos hc]

/-- A `reveal` while in progress goes straight to the post-placement half. -/
theorem reveal_inProgress (e : Engine) (pos : Position) (samples : List Nat)
    (h : e.state = GameState.InProgress) :
    e.reveal pos samples = e.revealAfterPlacement pos := by
  rw [Engine.reveal]
  rw [if_neg (by simp [Engine.is_lost, Engine.is_won, h])]
  rw [if_neg (by rw [h]; exact fun hc => GameState.noConfusion hc)]
  rfl

/-- A first-move `reveal` places bombs, computes adjacency, switches to
`InProgress`, and continues with the post-placement half. -/
theorem reveal_firstMove (e : Engine) (pos : Position) (samples : List Nat)
    (h : e.state = GameState.FirstMove) :
    e.reveal pos samples =
      (e.board.insert_bombs pos samples).bind
        (fun b => ({ e with
            board := b.calculate_adjacent_bombs
            state := GameState.InProgress } : Engine).revealAfterPlacement pos) := by
  rw [Engine.reveal]
  rw [if_neg (by simp [Engine.is_lost, Engine.is_won, h])]
  rw [if_pos h]
  cases hib : e.board.insert_bombs pos samples with
  | none => simp [hib]
  | some b => simp [hib]

/-- `check_win_condition` only possibly flips the phase to `Won`. -/
theorem check_win_facts (e : Engine) :
    (e.check_win_condition).board = e.board ∧ (e.check_win_condition).bombs_left = e.bombs_left ∧
      ((e.check_win_condition).state = GameState.Won ∨ (e.check_win_condition).state = e.state) := by
  rw [Engine.check_win_condition]
  split
  · exact ⟨rfl, rfl, Or.inl rfl⟩
  · exact ⟨rfl, rfl, Or.inr rfl⟩

/-- `flag` never touches phase, dimensions, counters, bombs, adjacency,
or the revealed set — it only toggles one flag bit. -/
theorem flag_facts (e : Engine) (pos : Position) :
    (e.flag pos).state = e.state ∧
    (e.flag pos).board.width = e.board.width ∧
    (e.flag pos).board.height = e.board.height ∧
    (e.flag pos).board.tiles_left = e.board.tiles_left ∧
    (e.flag pos).board.num_bombs = e.board.num_bombs ∧
    (e.flag pos).board.tiles.length = e.board.tiles.length ∧
    (e.flag pos).board.tiles.map Tile.is_revealed = e.board.tiles.map Tile.is_revealed ∧
    (e.flag pos).board.tiles.map Tile.has_bomb = e.board.tiles.map Tile.has_bomb ∧
    (e.flag pos).board.tiles.map Tile.adjacent_bombs = e.board.tiles.map Tile.adjacent_bombs := by
  rw [Engine.flag]
  cases hst : (e.board.tiles.getD (pos.to_index e.board.width) Tile.initial).state with
  | Revealed =>
      exact ⟨rfl, rfl, rfl, rfl, rfl, rfl, rfl, rfl, rfl⟩
  | Block n =>
      refine ⟨rfl, rfl, rfl, rfl, rfl, List.length_set _ _ _, ?_, ?_, ?_⟩
      · apply map_set_proj
        show ({ e.board.tiles.getD (pos.to_index e.board.width) Tile.initial with
            state := TileState.Block (!n) } : Tile).is_revealed
          = (e.board.tiles.getD (pos.to_index e.board.width) Tile.initial).is_revealed
        rw [Tile.is_revealed, Tile.is_revealed, hst]
        rfl
      · exact map_set_proj _ _ _ _ rfl
      · exact map_set_proj _ _ _ _ rfl

/-- `revealedCount` through a projection-equality of revealed bits. -/
theorem revealedCount_eq_of_map_revealed_eq {b b' : Board}
    (h : b.tiles.map Tile.is_revealed = b'.tiles.map Tile.is_revealed) :
    b.revealedCount = b'.revealedCount := by
  rw [revealedCount_eq_countP, revealedCount_eq_countP]
  calc b.tiles.countP (fun t => t.is_revealed)
      = b.tiles.countP ((fun v => v) ∘ Tile.is_revealed) := rfl
    _ = (b.tiles.map Tile.is_revealed).countP (fun v => v) := (List.countP_map _ _ _).symm
    _ = (b'.tiles.map Tile.is_revealed).countP (fun v => v) := by rw [h]
    _ = b'.tiles.countP ((fun v => v) ∘ Tile.is_revealed) := List.countP_map _ _ _
    _ = b'.tiles.countP (fun t => t.is_revealed) := rfl

/-- The post-placement half of `reveal` never changes bomb bits,
adjacency counts, dimensions, the bomb budget, or the tile count. -/
theorem revealAfterPlacement_preserves (e : Engine) (pos : Position) (e' : Engine)
    (h : e.revealAfterPlacement pos = some e') :
    e'.board.tiles.map Tile.has_bomb = e.board.tiles.map Tile.has_bomb ∧
    e'.board.tiles.map Tile.adjacent_bombs = e.board.tiles.map Tile.adjacent_bombs ∧
    e'.board.tiles.length = e.board.tiles.length ∧
    e'.board.width = e.board.width ∧ e'.board.height = e.board.height ∧
    e'.board.num_bombs = e.board.num_bombs := by
  rw [revealAfterPlacement_eq] at h
  by_cases hskip : ((e.board.tiles.getD (pos.to_index e.board.width) Tile.initial).is_revealed
      || (e.board.tiles.getD (pos.to_index e.board.width) Tile.initial).is_flagged) = true
  · rw [if_pos hskip] at h
    cases h
    exact ⟨rfl, rfl, rfl, rfl, rfl, rfl⟩
  · rw [if_neg hskip] at h
    by_cases hbomb : (e.board.tiles.getD (pos.to_index e.board.width) Tile.initial).is_bomb
        = true
    · rw [if_pos hbomb] at h
      cases h
      exact ⟨map_set_proj _ _ _ _ rfl, map_set_proj _ _ _ _ rfl,
        List.length_set _ _ _, rfl, rfl, rfl⟩
    · rw [if_neg hbomb] at h
      cases hrt : e.board.reveal_tile pos with
      | none => rw [hrt] at h; exact absurd h (by simp)
      | some b2 =>
          rw [hrt, Option.map_some'] at h
          cases h
          obtain ⟨hb, hcw, _⟩ := check_win_facts { e with board := b2 }
          rw [Board.reveal_tile] at hrt
          obtain ⟨p1, p2, p3, p4, p5, p6⟩ := revealLoop_preserves _ _ _ _ hrt
          rw [hb]
          exact ⟨p5, p6, p4, p1, p2, p3⟩

/-- The post-placement half of `reveal` preserves the concealed-count
invariant, adding one uncounted revealed tile exactly when it loses. -/
theorem revealAfterPlacement_inv (e : Engine) (pos : Position) (e' : Engine)
    (hwf : e.board.WF) (hpos : e.board.inBounds pos = true)
    (hs : e.state = GameState.InProgress)
    (hcnt : e.board.revealedCount + e.board.tiles_left = e.board.width * e.board.height)
    (h : e.revealAfterPlacement pos = some e') :
    e'.board.WF ∧
    e'.board.revealedCount + e'.board.tiles_left
      = e.board.width * e.board.height + (if e'.state = GameState.Lost then 1 else 0) := by
  rw [revealAfterPlacement_eq] at h
  by_cases hskip : ((e.board.tiles.getD (pos.to_index e.board.width) Tile.initial).is_revealed
      || (e.board.tiles.getD (pos.to_index e.board.width) Tile.initial).is_flagged) = true
  · rw [if_pos hskip] at h
    cases h
    refine ⟨hwf, ?_⟩
    rw [hs]
    simp [hcnt]
  · rw [if_neg hskip] at h
    by_cases hbomb : (e.board.tiles.getD (pos.to_index e.board.width) Tile.initial).is_bomb
        = true
    · rw [if_pos hbomb] at h
      cases h
      have hidx : pos.to_index e.board.width < e.board.tiles.length :=
        (to_index_spec _ _ hwf hpos).2
      have hold : (e.board.tiles.getD (pos.to_index e.board.width) Tile.initial).is_revealed
          = false := by
        simp only [Bool.or_eq_true, not_or] at hskip
        cases hh : (e.board.tiles.getD (pos.to_index e.board.width) Tile.initial).is_revealed with
        | false => rfl
        | true => exact absurd hh (by simpa using hskip.1)
      have hnew : ({ e.board.tiles.getD (pos.to_index e.board.width) Tile.initial with
          state := TileState.Revealed } : Tile).is_revealed = true := rfl
      have hrc : (e.board.tiles.set (pos.to_index e.board.width)
            { e.board.tiles.getD (pos.to_index e.board.width) Tile.initial with
              state := TileState.Revealed }).countP (fun t => t.is_revealed)
          = e.board.tiles.countP (fun t => t.is_revealed) + 1 := by
        rw [countP_set_getD _ _ _ hidx, hold, hnew]
        simp
      refine ⟨⟨(List.length_set _ _ _).trans hwf.1, hwf.2⟩, ?_⟩
      rw [revealedCount_eq_countP]
      show (e.board.tiles.set (pos.to_index e.board.width)
            { e.board.tiles.getD (pos.to_index e.board.width) Tile.initial with
              state := TileState.Revealed }).countP (fun t => t.is_revealed)
          + e.board.tiles_left
        = e.board.width * e.board.height + (if GameState.Lost = GameState.Lost then 1 else 0)
      rw [hrc, if_pos rfl]
      rw [revealedCount_eq_countP] at hcnt
      omega
    · rw [if_neg hbomb] at h
      cases hrt : e.board.reveal_tile pos with
      | none => rw [hrt] at h; exact absurd h (by simp)
      | some b2 =>
          rw [hrt, Option.map_some'] at h
          cases h
          rw [Board.reveal_tile] at hrt
          have hq : ∀ p ∈ [pos], e.board.inBounds p = true := by
            intro p hp
            cases hp with
            | head => exact hpos
            | tail _ hh => cases hh
          have hcnt2 := revealLoop_countInv _ _ _ _ hwf hcnt hq hrt
          obtain ⟨p1, p2, p3, p4, p5, p6⟩ := revealLoop_preserves _ _ _ _ hrt
          have hb2 : (Engine.check_win_condition
              { e with board := b2 } : Engine).board = b2 :=
            (check_win_facts { e with board := b2 }).1
          have hst := (check_win_facts { e with board := b2 }).2.2
          have hwf2 : b2.WF := by
            constructor
            · rw [p4, p1, p2]; exact hwf.1
            · rw [p1, p2]; exact hwf.2
          refine ⟨?_, ?_⟩
          · rw [hb2]; exact hwf2
          rw [hb2]
          have hnotlost : (Engine.check_win_condition
              { e with board := b2 } : Engine).state ≠ GameState.Lost := by
            rcases hst with hw | hp
            · rw [hw]; exact fun hc => GameState.noConfusion hc
            · show _ ≠ _
              rw [hp]
              show e.state ≠ GameState.Lost
              rw [hs]
              exact fun hc => GameState.noConfusion hc
          rw [if_neg hnotlost]
          rw [p1, p2] at hcnt2
          omega

/-- `inBounds` only reads the dimensions. -/
theorem inBounds_congr {b b' : Board} (p : Position)
    (h1 : b.width = b'.width) (h2 : b.height = b'.height) :
    b.inBounds p = b'.inBounds p := by
  rw [Board.inBounds, Board.inBounds, h1, h2]

/-- The fresh board starts with no tile revealed. -/
theorem new_revealedCount (w h n : Nat) : (Board.new w h n).revealedCount = 0 := by
  rw [revealedCount_eq_countP]
  show (List.replicate (w * h) Tile.initial).countP (fun t => t.is_revealed) = 0
  rw [List.countP_replicate]
  have : Tile.initial.is_revealed = false := rfl
  rw [this]
  simp

/-- Fundamental invariant of reachable states: the dimensions never
change, the board stays well-formed, and `revealedCount + tiles_left`
equals `width*height` — except that the losing mine reveal adds one
revealed tile without decrementing `tiles_left`. -/
theorem reachable_inv (w h n : Nat) (hsz : w * h < 2 ^ 64) :
    ∀ e : Engine, Reachable w h n e →
      e.board.WF ∧ e.board.width = w ∧ e.board.height = h ∧
      e.board.revealedCount + e.board.tiles_left
        = w * h + (if e.state = GameState.Lost then 1 else 0) := by
  intro e hr
  induction hr with
  | init =>
      refine ⟨⟨List.length_replicate _ _, hsz⟩, rfl, rfl, ?_⟩
      have hrc : (Engine.new w h n).board.revealedCount = 0 := new_revealedCount w h n
      rw [hrc]
      show 0 + (w * h) = w * h + (if GameState.FirstMove = GameState.Lost then 1 else 0)
      simp
  | @flagMove e pos hr hpos ih =>
      obtain ⟨hwf, hww, hhh, hcnt⟩ := ih
      obtain ⟨f1, f2, f3, f4, f5, f6, f7, f8, f9⟩ := flag_facts e pos
      refine ⟨⟨?_, ?_⟩, f2.trans hww, f3.trans hhh, ?_⟩
      · rw [f6, f2, f3]; exact hwf.1
      · rw [f2, f3]; exact hwf.2
      · rw [revealedCount_eq_of_map_revealed_eq f7, f4, f1]
        exact hcnt
  | @revealMove e e' pos samples hr hpos heq ih =>
      obtain ⟨hwf, hww, hhh, hcnt⟩ := ih
      cases hstate : e.state with
      | Lost =>
          rw [reveal_terminal e pos samples (Or.inr hstate)] at heq
          cases heq
          rw [hstate] at hcnt
          exact ⟨hwf, hww, hhh, hstate ▸ hcnt⟩
      | Won =>
          rw [reveal_terminal e pos samples (Or.inl hstate)] at heq
          cases heq
          rw [hstate] at hcnt
          exact ⟨hwf, hww, hhh, hstate ▸ hcnt⟩
      | InProgress =>
          rw [reveal_inProgress e pos samples hstate] at heq
          have hcnt' : e.board.revealedCount + e.board.tiles_left
              = e.board.width * e.board.height := by
            rw [hstate] at hcnt
            rw [if_neg (fun hc => GameState.noConfusion hc)] at hcnt
            rw [hww, hhh]
            simpa using hcnt
          obtain ⟨hwf', hcnt2⟩ :=
            revealAfterPlacement_inv e pos e' hwf hpos hstate hcnt' heq
          obtain ⟨_, _, _, hw', hh', _⟩ := revealAfterPlacement_preserves e pos e' heq
          refine ⟨hwf', hw'.trans hww, hh'.trans hhh, ?_⟩
          rw [hww, hhh] at hcnt2
          exact hcnt2
      | FirstMove =>
          rw [reveal_firstMove e pos samples hstate] at heq
          cases hib : e.board.insert_bombs pos samples with
          | none => rw [hib] at heq; exact absurd heq (by simp)
          | some b =>
              rw [hib, Option.some_bind] at heq
              obtain ⟨i1, i2, i3, i4, i5, i6, i7, i8⟩ := insert_bombs_facts _ _ _ _ hib
              obtain ⟨c1, c2, c3, c4, c5, c6⟩ := calculate_adjacent_bombs_facts b
              have hclen : (b.calculate_adjacent_bombs).tiles.length = b.tiles.length := by
                have := congrArg List.length c1
                simpa using this
              have hwfE1 : ({ e with
                  board := b.calculate_adjacent_bombs
                  state := GameState.InProgress } : Engine).board.WF := by
                constructor
                · show (b.calculate_adjacent_bombs).tiles.length
                    = (b.calculate_adjacent_bombs).width * (b.calculate_adjacent_bombs).height
                  rw [hclen, i3, c3, c4, i4, i5]
                  exact hwf.1
                · show (b.calculate_adjacent_bombs).width * (b.calculate_adjacent_bombs).height
                    < 2 ^ 64
                  rw [c3, c4, i4, i5]
                  exact hwf.2
              have hposE1 : ({ e with
                  board := b.calculate_adjacent_bombs
                  state := GameState.InProgress } : Engine).board.inBounds pos = true := by
                show (b.calculate_adjacent_bombs).inBounds pos = true
                rw [inBounds_congr pos (c3.trans i4) (c4.trans i5)]
                exact hpos
              have hcntE1 : ({ e with
                  board := b.calculate_adjacent_bombs
                  state := GameState.InProgress } : Engine).board.revealedCount
                  + ({ e with
                  board := b.calculate_adjacent_bombs
                  state := GameState.InProgress } : Engine).board.tiles_left
                  = ({ e with
                  board := b.calculate_adjacent_bombs
                  state := GameState.InProgress } : Engine).board.width
                  * ({ e with
                  board := b.calculate_adjacent_bombs
                  state := GameState.InProgress } : Engine).board.height := by
            
                show (b.calculate_adjacent_bombs).revealedCount
                    + (b.calculate_adjacent_bombs).tiles_left
                    = (b.calculate_adjacent_bombs).width * (b.calculate_adjacent_bombs).height
                rw [revealedCount_eq_of_map_state_eq (c1.trans i1), c5, i6, c3, c4, i4, i5, hww, hhh]
                rw [hstate] at hcnt
                rw [if_neg (fun hc => GameState.noConfusion hc)] at hcnt
                simpa using hcnt
              obtain ⟨hwf', hcnt2⟩ :=
                revealAfterPlacement_inv _ pos e' hwfE1 hposE1 rfl hcntE1 heq
              obtain ⟨_, _, _, hw', hh', _⟩ := revealAfterPlacement_preserves _ pos e' heq
              refine ⟨hwf', ?_, ?_, ?_⟩
              · show e'.board.width = w
                rw [hw']
                show (b.calculate_adjacent_bombs).width = w
                rw [c3, i4]
                exact hww
              · show e'.board.height = h
                rw [hh']
                show (b.calculate_adjacent_bombs).height = h
                rw [c4, i5]
                exact hhh
              · rw [show ({ e with
                    board := b.calculate_adjacent_bombs
                    state := GameState.InProgress } : Engine).board.width
                    = w from c3.trans (i4.trans hww),
                  show ({ e with
                    board := b.calculate_adjacent_bombs
                    state := GameState.InProgress } : Engine).board.height
                    = h from c4.trans (i5.trans hhh)] at hcnt2
                exact hcnt2

/-- Every lookup in the fresh grid yields the initial tile. -/
theorem getD_replicate_initial (m i : Nat) :
    (List.replicate m Tile.initial).getD i Tile.initial = Tile.initial := by
  rw [List.getD_eq_getElem?_getD]
  cases hi : (List.replicate m Tile.initial)[i]? with
  | none => rfl
  | some t =>
      have ht := List.eq_of_mem_replicate (List.getElem?_mem hi)
      simp [ht]

/-- `is_flagged` only reads the state. -/
theorem is_flagged_congr {t t' : Tile} (h : t.state = t'.state) :
    t.is_flagged = t'.is_flagged := by
  rw [Tile.is_flagged, Tile.is_flagged, h]

/-- `bombCount` through a projection-equality of bomb bits. -/
theorem bombCount_eq_of_map_bomb_eq {b b' : Board}
    (h : b.tiles.map Tile.has_bomb = b'.tiles.map Tile.has_bomb) :
    b.bombCount = b'.bombCount := by
  rw [Board.bombCount, Board.bombCount]
  calc b.tiles.countP (fun t => t.has_bomb)
      = b.tiles.countP ((fun v => v) ∘ Tile.has_bomb) := rfl
    _ = (b.tiles.map Tile.has_bomb).countP (fun v => v) := (List.countP_map _ _ _).symm
    _ = (b'.tiles.map Tile.has_bomb).countP (fun v => v) := by rw [h]
    _ = b'.tiles.countP ((fun v => v) ∘ Tile.has_bomb) := List.countP_map _ _ _
    _ = b'.tiles.countP (fun t => t.has_bomb) := rfl


/-- The post-placement half of `reveal` always succeeds on a well-formed
board and in-bounds coordinate. -/
theorem revealAfterPlacement_some (e : Engine) (pos : Position)
    (hwf : e.board.WF) (hpos : e.board.inBounds pos = true) :
    ∃ e', e.revealAfterPlacement pos = some e' := by
  rw [revealAfterPlacement_eq]
  by_cases hskip : ((e.board.tiles.getD (pos.to_index e.board.width) Tile.initial).is_revealed
      || (e.board.tiles.getD (pos.to_index e.board.width) Tile.initial).is_flagged) = true
  · rw [if_pos hskip]
    exact ⟨e, rfl⟩
  · rw [if_neg hskip]
    by_cases hbomb : (e.board.tiles.getD (pos.to_index e.board.width) Tile.initial).is_bomb
        = true
    · rw [if_pos hbomb]
      exact ⟨_, rfl⟩
    · rw [if_neg hbomb]
      obtain ⟨b2, hb2⟩ := reveal_tile_some e.board pos hwf hpos
      exact ⟨_, by rw [hb2, Option.map_some']⟩

/-- A one-bomb placement whose single sample is accepted, spelled out. -/
theorem insert_bombs_single (b : Board) (safe_position : Position) (s : Nat)
    (hn : b.num_bombs = 1)
    (hguard : ((b.tiles.getD (s % (b.width * b.height)) Tile.initial).has_bomb
        || (((b.safe_positions safe_position).map (fun pos => pos.to_index b.width)).contains
            (s % (b.width * b.height)))) = false) :
    b.insert_bombs safe_position [s]
      = some { b with
          tiles := b.tiles.set (s % (b.width * b.height))
            { b.tiles.getD (s % (b.width * b.height)) Tile.initial with
              has_bomb := true } } := by
  rw [Board.insert_bombs, hn]
  simp only [insertBombsGo]
  rw [if_neg (by rw [hguard]; exact fun hc => Bool.noConfusion hc)]
  rfl

/-- When both dimensions fit in `i32`, every exactly-in-bounds neighbour
of the clicked coordinate belongs to the program's safe set. -/
theorem mem_safe_positions_of_inBounds (b : Board) (safe off : Position)
    (hoff : off ∈ ADJACENT_OFFSETS) (hw : b.width < 2 ^ 31) (hh : b.height < 2 ^ 31)
    (hib : b.inBounds (safe.add off) = true) :
    safe.add off ∈ b.safe_positions safe := by
  rw [Board.safe_positions]
  apply List.mem_cons_of_mem
  apply List.mem_filter.mpr
  refine ⟨List.mem_map_of_mem _ hoff, ?_⟩
  rw [inBounds_iff] at hib
  obtain ⟨h1, h2, h3, h4⟩ := hib
  have hwc : i32Cast b.width = (b.width : Int) := i32Cast_of_lt _ hw
  have hhc : i32Cast b.height = (b.height : Int) := i32Cast_of_lt _ hh
  show (0 ≤ (safe.add off).x && (safe.add off).x < i32Cast b.width
      && 0 ≤ (safe.add off).y && (safe.add off).y < i32Cast b.height) = true
  rw [hwc, hhc]
  simp only [Bool.and_eq_true, decide_eq_true_eq]
  exact ⟨⟨⟨h1, h2⟩, h3⟩, h4⟩

/-! ### Claim theorems -/

/-- C1 (counterexample): on the 3×3 board whose only mine is fixed at
(1,1), a single reveal of (0,0) does NOT produce the claimed outcome
(all 8 non-mine tiles revealed and phase `Won`): every non-mine tile of
this board touches the central mine, so nothing cascades. -/
theorem claim_C1_counterexample :
    (c1engine.reveal ⟨0, 0⟩ []).map
        (fun e => (e.state, e.board.tiles.map Tile.is_revealed))
      ≠ some (GameState.Won,
          [true, true, true, true, false, true, true, true, true]) := by
  decide

/-- C1 (amended): on a 3×3 board whose only mine is fixed at (1,1)
(adjacency computed), revealing (0,0) reveals exactly the tile (0,0) —
its adjacent-mine count is 1, so no cascade — the phase stays
`InProgress`, and the mine tile remains concealed. -/
theorem claim_C1_amended :
    (c1engine.reveal ⟨0, 0⟩ []).map
        (fun e => (e.state, e.board.tiles.map Tile.is_revealed, e.board.tiles_left))
      = some (GameState.InProgress,
          [true, false, false, false, false, false, false, false, false], 8)
    ∧ (c1board.tiles.getD 0 Tile.initial).adjacent_bombs = 1 := by
  constructor
  · decide
  · decide

/-- C2 (counterexample): in the lost 5×1 game reached by two real
reveals, four tiles are revealed while `tiles_left` still reads 2, so
`revealedCount + tiles_left = 6 ≠ 5 = width*height`: the losing mine
reveal did not decrement the concealed counter. -/
theorem claim_C2_counterexample :
    lostRun.map (fun e => (e.state, e.board.revealedCount + e.board.tiles_left))
      = some (GameState.Lost, 6) ∧ (6 : Nat) ≠ 5 * 1 := by
  constructor
  · decide
  · decide

/-- C2 (amended): in every reachable state, `revealedCount + tiles_left`
equals `width*height`, plus one exactly when the phase is `Lost`: the
counter is decremented on every cascade reveal but NOT on the mine
reveal that ends the game. -/
theorem claim_C2_amended (w h n : Nat) (hsz : w * h < 2 ^ 64) (e : Engine)
    (hr : Reachable w h n e) :
    e.board.revealedCount + e.board.tiles_left
      = w * h + (if e.state = GameState.Lost then 1 else 0) :=
  (reachable_inv w h n hsz e hr).2.2.2

/-- C2 (witness): the invariant instantiated at the fresh 5×1 engine. -/
theorem claim_C2_witness :
    (Engine.new 5 1 1).board.revealedCount + (Engine.new 5 1 1).board.tiles_left
      = 5 * 1 + (if (Engine.new 5 1 1).state = GameState.Lost then 1 else 0) :=
  claim_C2_amended 5 1 1 (by decide) (Engine.new 5 1 1) Reachable.init

/-- C7: once the phase is `Won` or `Lost`, a `reveal` call returns the
engine completely unchanged — same tile grid, counters, and phase. -/
theorem claim_C7_post_terminal_reveal (e : Engine) (pos : Position) (samples : List Nat)
    (h : e.state = GameState.Won ∨ e.state = GameState.Lost) :
    e.reveal pos samples = some e :=
  reveal_terminal e pos samples h

/-- C7 (witness): revealing again in the concrete lost 5×1 game changes
nothing. -/
theorem claim_C7_witness :
    (lostRun.getD (Engine.new 0 0 0)).reveal ⟨0, 0⟩ []
      = some (lostRun.getD (Engine.new 0 0 0)) :=
  claim_C7_post_terminal_reveal (lostRun.getD (Engine.new 0 0 0)) ⟨0, 0⟩ []
    (Or.inr (by decide))

/-- C8 (counterexample): the out-of-bounds coordinate (3,0) on a 3×3
board converts to index 3, which is inside the 9-tile grid, so the
out-of-bounds access branch is NOT reached for it — refuting "every
out-of-bounds coordinate panics on the bad index". -/
theorem claim_C8_counterexample :
    (Engine.new 3 3 0).board.inBounds ⟨3, 0⟩ = false ∧
    (Engine.new 3 3 0).accessOutOfGrid ⟨3, 0⟩ = false := by
  constructor
  · decide
  · decide

/-- C8 (amended): the conversion is unchecked and nothing validates the
input, but only some out-of-bounds coordinates reach the out-of-bounds
access (e.g. (0,3): index 9 ≥ 9, a panic); others, like (3,0), wrap to
the in-bounds index 3 = to_index (0,1) and the call silently mutates
that other tile (flagging (3,0) flags the tile of (0,1)). -/
theorem claim_C8_amended :
    (Engine.new 3 3 0).board.inBounds ⟨0, 3⟩ = false ∧
    (Engine.new 3 3 0).accessOutOfGrid ⟨0, 3⟩ = true ∧
    (Engine.new 3 3 0).board.inBounds ⟨3, 0⟩ = false ∧
    (Engine.new 3 3 0).accessOutOfGrid ⟨3, 0⟩ = false ∧
    Position.to_index ⟨3, 0⟩ 3 = Position.to_index ⟨0, 1⟩ 3 ∧
    (((Engine.new 3 3 0).flag ⟨3, 0⟩).board.tiles.getD
        (Position.to_index ⟨0, 1⟩ 3) Tile.initial).is_flagged = true := by
  refine ⟨?_, ?_, ?_, ?_, ?_, ?_⟩ <;> decide

/-- C9: on a well-formed board, the cascade flood fill from any
in-bounds start coordinate terminates (the builtin fuel suffices), its
result is a deterministic function of board and start (any two
successful fuel choices agree), and it reveals at most `width*height`
tiles. -/
theorem claim_C9_cascade_termination (b : Board) (pos : Position)
    (hwf : b.WF) (hpos : b.inBounds pos = true) :
    (∃ b', b.reveal_tile pos = some b') ∧
    (∀ fuel₁ fuel₂ b₁ b₂, Board.revealLoop fuel₁ [pos] b = some b₁ →
      Board.revealLoop fuel₂ [pos] b = some b₂ → b₁ = b₂) ∧
    (∀ b', b.reveal_tile pos = some b' → b'.revealedCount ≤ b.width * b.height) := by
  refine ⟨reveal_tile_some b pos hwf hpos, ?_, ?_⟩
  · intro f1 f2 b1 b2 h1 h2
    exact revealLoop_agree f1 _ _ f2 b1 b2 h1 h2
  · intro b' h
    rw [Board.reveal_tile] at h
    obtain ⟨_, _, _, hlen, _, _⟩ := revealLoop_preserves _ _ _ _ h
    calc b'.revealedCount
        ≤ b'.tiles.length := by
          rw [revealedCount_eq_countP]; exact List.countP_le_length _
      _ = b.tiles.length := hlen
      _ = b.width * b.height := hwf.1

/-- C9 (witness): the cascade statement at a fresh 2×2 board started
from (0,0). -/
theorem claim_C9_witness :
    (∃ b', (Board.new 2 2 0).reveal_tile ⟨0, 0⟩ = some b') ∧
    (∀ fuel₁ fuel₂ b₁ b₂, Board.revealLoop fuel₁ [⟨0, 0⟩] (Board.new 2 2 0) = some b₁ →
      Board.revealLoop fuel₂ [⟨0, 0⟩] (Board.new 2 2 0) = some b₂ → b₁ = b₂) ∧
    (∀ b', (Board.new 2 2 0).reveal_tile ⟨0, 0⟩ = some b' →
      b'.revealedCount ≤ 2 * 2) :=
  claim_C9_cascade_termination (Board.new 2 2 0) ⟨0, 0⟩ ⟨by decide, by decide⟩ (by decide)

/-- For any board size, bomb budget, first-move coordinate and random
samples under which placement terminates, after the first `reveal` of a
fresh game no position of the program's safe set carries a mine. -/
theorem first_reveal_safe_positions (w h n : Nat) (pos : Position) (samples : List Nat)
    (e' : Engine) (hrev : (Engine.new w h n).reveal pos samples = some e') :
    ∀ q ∈ (Engine.new w h n).board.safe_positions pos,
      (e'.board.tiles.getD (q.to_index w) Tile.initial).has_bomb = false := by
  intro q hq
  have hs : (Engine.new w h n).state = GameState.FirstMove := rfl
  rw [reveal_firstMove _ pos samples hs] at hrev
  cases hib : (Engine.new w h n).board.insert_bombs pos samples with
  | none => rw [hib] at hrev; exact absurd hrev (by simp)
  | some b =>
      rw [hib, Option.some_bind] at hrev
      obtain ⟨i1, i2, i3, i4, i5, i6, i7, i8⟩ := insert_bombs_facts _ _ _ _ hib
      obtain ⟨c1, c2, c3, c4, c5, c6⟩ := calculate_adjacent_bombs_facts b
      obtain ⟨r1, r2, r3, r4, r5, r6⟩ := revealAfterPlacement_preserves _ pos e' hrev
      have h1 : (e'.board.tiles.getD (q.to_index w) Tile.initial).has_bomb
          = ((b.calculate_adjacent_bombs).tiles.getD (q.to_index w) Tile.initial).has_bomb :=
        proj_getD_of_map_eq Tile.has_bomb r1 _ _
      have h2 : ((b.calculate_adjacent_bombs).tiles.getD (q.to_index w) Tile.initial).has_bomb
          = (b.tiles.getD (q.to_index w) Tile.initial).has_bomb :=
        proj_getD_of_map_eq Tile.has_bomb c2 _ _
      have h3 := i8 q hq
      have h4 : (((Engine.new w h n).board.tiles.getD (q.to_index w) Tile.initial)).has_bomb
          = false := by
        show ((List.replicate (w * h) Tile.initial).getD (q.to_index w) Tile.initial).has_bomb
          = false
        rw [getD_replicate_initial]
        rfl
      rw [h1, h2]
      exact h3.trans h4


/-- C5: a `reveal` on an in-bounds, unrevealed, unflagged tile carrying
a mine, while the game is in progress, succeeds and makes the phase
`Lost` in that same call; that tile becomes revealed, and every other
tile, the concealed counter and the mines-left counter are unchanged
(no cascade). -/
theorem claim_C5_loss_frame (e : Engine) (pos : Position) (samples : List Nat)
    (hwf : e.board.WF) (hpos : e.board.inBounds pos = true)
    (hs : e.state = GameState.InProgress)
    (hnr : (e.board.tiles.getD (pos.to_index e.board.width) Tile.initial).is_revealed = false)
    (hnf : (e.board.tiles.getD (pos.to_index e.board.width) Tile.initial).is_flagged = false)
    (hbm : (e.board.tiles.getD (pos.to_index e.board.width) Tile.initial).is_bomb = true) :
    (∃ e', e.reveal pos samples = some e') ∧
    ∀ e', e.reveal pos samples = some e' →
      e'.state = GameState.Lost ∧
      (e'.board.tiles.getD (pos.to_index e.board.width) Tile.initial).is_revealed = true ∧
      e'.board.tiles_left = e.board.tiles_left ∧
      e'.bombs_left = e.bombs_left ∧
      ∀ j : Nat, j ≠ pos.to_index e.board.width →
        e'.board.tiles.getD j Tile.initial = e.board.tiles.getD j Tile.initial := by
  have hidx : pos.to_index e.board.width < e.board.tiles.length :=
    (to_index_spec _ _ hwf hpos).2
  have hred : e.reveal pos samples = some { e with
      board := { e.board with
                 tiles := e.board.tiles.set (pos.to_index e.board.width)
                   { e.board.tiles.getD (pos.to_index e.board.width) Tile.initial with
                     state := TileState.Revealed } }
      state := GameState.Lost } := by
    rw [reveal_inProgress e pos samples hs, revealAfterPlacement_eq]
    rw [if_neg (by rw [hnr, hnf]; simp)]
    rw [if_pos hbm]
  refine ⟨⟨_, hred⟩, ?_⟩
  intro e' h
  rw [hred] at h
  cases h
  refine ⟨rfl, ?_, rfl, rfl, ?_⟩
  · show ((e.board.tiles.set (pos.to_index e.board.width)
        { e.board.tiles.getD (pos.to_index e.board.width) Tile.initial with
          state := TileState.Revealed }).getD (pos.to_index e.board.width)
        Tile.initial).is_revealed = true
    rw [List.getD_eq_getElem?_getD, List.getElem?_set_self hidx]
    rfl
  · intro j hj
    exact getD_set_ne _ _ _ _ _ hj

/-- C5 (witness): the loss-frame statement at the concrete 3×3 board
with its mine at (1,1), revealed at (1,1). -/
theorem claim_C5_witness :
    (∃ e', c1engine.reveal ⟨1, 1⟩ [] = some e') ∧
    ∀ e', c1engine.reveal ⟨1, 1⟩ [] = some e' →
      e'.state = GameState.Lost ∧
      (e'.board.tiles.getD (Position.to_index ⟨1, 1⟩ c1engine.board.width)
          Tile.initial).is_revealed = true ∧
      e'.board.tiles_left = c1engine.board.tiles_left ∧
      e'.bombs_left = c1engine.bombs_left ∧
      ∀ j : Nat, j ≠ Position.to_index ⟨1, 1⟩ c1engine.board.width →
        e'.board.tiles.getD j Tile.initial = c1engine.board.tiles.getD j Tile.initial :=
  claim_C5_loss_frame c1engine ⟨1, 1⟩ [] ⟨by decide, by decide⟩ (by decide) (by decide)
    (by decide) (by decide) (by decide)

/-- C6 (counterexample): in the concrete lost 5×1 game, a flag call on
the concealed in-bounds tile (4,0) changes the engine — `flag` is NOT a
no-op after the game ends. -/
theorem claim_C6_counterexample :
    lostRun.map (fun e => (e.is_lost, decide (e.flag ⟨4, 0⟩ = e))) = some (true, false) := by
  decide

/-- C6 (amended): after the game is `Won` or `Lost`, `flag` is not gated
by phase: on a revealed tile it is a no-op, but on a concealed tile it
still toggles the flag bit and moves the mines-left counter. -/
theorem claim_C6_amended (e : Engine) (pos : Position)
    (hterm : e.state = GameState.Won ∨ e.state = GameState.Lost) :
    ((e.board.tiles.getD (pos.to_index e.board.width) Tile.initial).state
        = TileState.Revealed → e.flag pos = e) ∧
    (∀ f : Bool,
      (e.board.tiles.getD (pos.to_index e.board.width) Tile.initial).state
          = TileState.Block f →
      (e.flag pos).board.tiles = e.board.tiles.set (pos.to_index e.board.width)
          { e.board.tiles.getD (pos.to_index e.board.width) Tile.initial with
            state := TileState.Block (!f) } ∧
      (e.flag pos).bombs_left = (if f then e.bombs_left + 1 else e.bombs_left - 1)) := by
  constructor
  · intro hrev
    rw [Engine.flag, hrev]
  · intro f hf
    rw [Engine.flag, hf]
    exact ⟨rfl, rfl⟩

/-- C6 (witness): in the concrete lost game, flagging the concealed tile
(4,0) toggles its flag on and decrements mines-left from 1 to 0. -/
theorem claim_C6_witness :
    ((lostRun.getD (Engine.new 0 0 0)).flag ⟨4, 0⟩).board.tiles
        = (lostRun.getD (Engine.new 0 0 0)).board.tiles.set
            (Position.to_index ⟨4, 0⟩ (lostRun.getD (Engine.new 0 0 0)).board.width)
            { (lostRun.getD (Engine.new 0 0 0)).board.tiles.getD
                (Position.to_index ⟨4, 0⟩ (lostRun.getD (Engine.new 0 0 0)).board.width)
                Tile.initial with
              state := TileState.Block (!false) } ∧
    ((lostRun.getD (Engine.new 0 0 0)).flag ⟨4, 0⟩).bombs_left
        = (if false then (lostRun.getD (Engine.new 0 0 0)).bombs_left + 1
           else (lostRun.getD (Engine.new 0 0 0)).bombs_left - 1) :=
  (claim_C6_amended (lostRun.getD (Engine.new 0 0 0)) ⟨4, 0⟩ (Or.inr (by decide))).2
    false (by decide)

set_option maxRecDepth 100000

/-- C4: the phase becomes `Won` exactly when the concealed counter
equals the mine count (`check_win_condition`), and on a 5×5 board with
0 mines, revealing any single in-bounds tile cascades through all 25
tiles and wins. -/
theorem claim_C4_win_condition :
    (∀ e : Engine, (e.check_win_condition).state = GameState.Won ↔
      (e.board.tiles_left = e.board.num_bombs ∨ e.state = GameState.Won)) ∧
    (∀ p : Fin 5 × Fin 5,
      ((Engine.new 5 5 0).reveal ⟨(p.1 : Nat), (p.2 : Nat)⟩ []).map
          (fun e => (e.state, e.board.revealedCount, e.board.tiles_left))
        = some (GameState.Won, 25, 0)) := by
  constructor
  · intro e
    rw [Engine.check_win_condition]
    split
    · rename_i hc
      constructor
      · intro _
        exact Or.inl hc
      · intro _
        rfl
    · rename_i hc
      constructor
      · intro hw
        exact Or.inr hw
      · intro hor
        rcases hor with h1 | h2
        · exact absurd h1 hc
        · exact h2
  · decide

/-- C10: when the very first reveal of a game targets an in-bounds tile
that is currently flagged, the engine still places all its mines
(avoiding the clicked tile's safe zone — the program's safe set, which
coincides with the clicked tile plus its in-bounds 8-neighbours whenever
the dimensions fit in `i32`), computes adjacency, and moves the phase
from `FirstMove` to `InProgress` — but no tile state changes and the
concealed counter is untouched. -/
theorem claim_C10_first_reveal_flagged (e : Engine) (pos : Position) (samples : List Nat)
    (b' : Board)
    (hwf : e.board.WF) (hpos : e.board.inBounds pos = true)
    (hs : e.state = GameState.FirstMove)
    (hfl : (e.board.tiles.getD (pos.to_index e.board.width) Tile.initial).is_flagged = true)
    (hnb : ∀ t ∈ e.board.tiles, t.has_bomb = false)
    (hib : e.board.insert_bombs pos samples = some b') :
    e.reveal pos samples = some { e with
        board := b'.calculate_adjacent_bombs
        state := GameState.InProgress } ∧
    (b'.calculate_adjacent_bombs).tiles.map Tile.state = e.board.tiles.map Tile.state ∧
    (b'.calculate_adjacent_bombs).tiles_left = e.board.tiles_left ∧
    (b'.calculate_adjacent_bombs).bombCount = e.board.num_bombs ∧
    (∀ q ∈ e.board.safe_positions pos,
      ((b'.calculate_adjacent_bombs).tiles.getD (q.to_index e.board.width)
          Tile.initial).has_bomb = false) ∧
    (e.board.width < 2 ^ 31 → e.board.height < 2 ^ 31 →
      ∀ off ∈ ADJACENT_OFFSETS, e.board.inBounds (pos.add off) = true →
        ((b'.calculate_adjacent_bombs).tiles.getD ((pos.add off).to_index e.board.width)
            Tile.initial).has_bomb = false) := by
  obtain ⟨i1, i2, i3, i4, i5, i6, i7, i8⟩ := insert_bombs_facts _ _ _ _ hib
  obtain ⟨c1, c2, c3, c4, c5, c6⟩ := calculate_adjacent_bombs_facts b'
  have hmapstate : (b'.calculate_adjacent_bombs).tiles.map Tile.state
      = e.board.tiles.map Tile.state := c1.trans i1
  have hwidth : (b'.calculate_adjacent_bombs).width = e.board.width := c3.trans i4
  have hflE1 : ((b'.calculate_adjacent_bombs).tiles.getD
      (pos.to_index (b'.calculate_adjacent_bombs).width) Tile.initial).is_flagged = true := by
    rw [hwidth]
    have hst := proj_getD_of_map_eq Tile.state hmapstate (pos.to_index e.board.width)
      Tile.initial
    rw [is_flagged_congr hst]
    exact hfl
  have hwh : 0 < e.board.width * e.board.height := by
    rw [inBounds_iff] at hpos
    have h1 : 0 < e.board.width := by omega
    have h2 : 0 < e.board.height := by omega
    exact Nat.mul_pos h1 h2
  have hsafe : ∀ q ∈ e.board.safe_positions pos,
      ((b'.calculate_adjacent_bombs).tiles.getD (q.to_index e.board.width)
          Tile.initial).has_bomb = false := by
    intro q hq
    have b1 : ((b'.calculate_adjacent_bombs).tiles.getD (q.to_index e.board.width)
        Tile.initial).has_bomb
        = (b'.tiles.getD (q.to_index e.board.width) Tile.initial).has_bomb :=
      proj_getD_of_map_eq Tile.has_bomb c2 _ _
    have b2 := i8 q hq
    have b3 : (e.board.tiles.getD (q.to_index e.board.width) Tile.initial).has_bomb
        = false := by
      rw [List.getD_eq_getElem?_getD]
      cases hgi : e.board.tiles[q.to_index e.board.width]? with
      | none => rfl
      | some t =>
          have := hnb t (List.getElem?_mem hgi)
          simpa using this
    exact b1.trans (b2.trans b3)
  refine ⟨?_, hmapstate, c5.trans i6, ?_, hsafe, ?_⟩
  · rw [reveal_firstMove e pos samples hs, hib, Option.some_bind, revealAfterPlacement_eq]
    rw [if_pos (by
      show (((b'.calculate_adjacent_bombs).tiles.getD
          (pos.to_index (b'.calculate_adjacent_bombs).width) Tile.initial).is_revealed
          || ((b'.calculate_adjacent_bombs).tiles.getD
          (pos.to_index (b'.calculate_adjacent_bombs).width) Tile.initial).is_flagged)
        = true
      rw [hflE1]
      simp)]
  · have hb1 : (b'.calculate_adjacent_bombs).bombCount = b'.bombCount :=
      bombCount_eq_of_map_bomb_eq c2
    have hb2 : b'.bombCount = e.board.bombCount + e.board.num_bombs :=
      insert_bombs_count _ _ _ _ hwf.1 hwh hib
    have hb3 : e.board.bombCount = 0 := by
      rw [Board.bombCount]
      rw [List.countP_eq_zero]
      intro t ht
      rw [hnb t ht]
      exact fun hc => Bool.noConfusion hc
    rw [hb1, hb2, hb3, Nat.zero_add]
  · intro hw hh off hoff hoffib
    exact hsafe (pos.add off)
      (mem_safe_positions_of_inBounds e.board pos off hoff hw hh hoffib)

/-- C10 (witness): the flagged-first-reveal statement at the concrete
5×1 engine with tile (2,0) flagged and the bomb drawn at index 0. -/
theorem claim_C10_witness :
    c10engine.reveal ⟨2, 0⟩ [0] = some { c10engine with
        board := c10placed.calculate_adjacent_bombs
        state := GameState.InProgress } ∧
    (c10placed.calculate_adjacent_bombs).tiles_left = c10engine.board.tiles_left ∧
    (c10placed.calculate_adjacent_bombs).bombCount = c10engine.board.num_bombs ∧
    ((c10placed.calculate_adjacent_bombs).tiles.getD
        (Position.to_index ⟨2, 0⟩ c10engine.board.width) Tile.initial).has_bomb = false := by
  obtain ⟨h1, h2, h3, h4, h5, h6⟩ := claim_C10_first_reveal_flagged c10engine ⟨2, 0⟩ [0]
    c10placed ⟨by decide, by decide⟩ (by decide) (by decide) (by decide) (by decide)
    (by decide)
  exact ⟨h1, h3, h4, h5 ⟨2, 0⟩ (by decide)⟩

/-- C3 (counterexample): at width `2^31` the truncating `as i32` casts
in the safe-zone bounds check turn negative, so every neighbour of the
clicked coordinate is rejected and the program's safe set degenerates to
the clicked tile alone: the first reveal at (5,0) with the random draw
landing on index 4 places a mine on the in-bounds 8-neighbour (4,0) —
refuting the claim, which asserts neighbour safety for every first
reveal with no bound on the board size. -/
theorem claim_C3_counterexample :
    (⟨-1, 0⟩ : Position) ∈ ADJACENT_OFFSETS ∧
    Position.add ⟨5, 0⟩ ⟨-1, 0⟩ = (⟨4, 0⟩ : Position) ∧
    c3big.board.inBounds ⟨5, 0⟩ = true ∧
    c3big.board.inBounds ⟨4, 0⟩ = true ∧
    c3big.board.safe_positions ⟨5, 0⟩ = [⟨5, 0⟩] ∧
    ∃ e', c3big.reveal ⟨5, 0⟩ [4] = some e' ∧
      (e'.board.tiles.getD (Position.to_index ⟨4, 0⟩ (2 ^ 31)) Tile.initial).has_bomb
        = true := by
  refine ⟨by decide, by decide, by decide, by decide, by decide, ?_⟩
  have hguard : ((c3big.board.tiles.getD
      (4 % (c3big.board.width * c3big.board.height)) Tile.initial).has_bomb
      || (((c3big.board.safe_positions ⟨5, 0⟩).map
          (fun pos => pos.to_index c3big.board.width)).contains
          (4 % (c3big.board.width * c3big.board.height)))) = false := by
    have hmod : 4 % (c3big.board.width * c3big.board.height) = 4 := by decide
    rw [hmod]
    have hg1 : (c3big.board.tiles.getD 4 Tile.initial).has_bomb = false := by
      show ((List.replicate (2 ^ 31 * 1) Tile.initial).getD 4 Tile.initial).has_bomb = false
      rw [getD_replicate_initial]
      rfl
    rw [hg1, Bool.false_or]
    decide
  have hib0 := insert_bombs_single c3big.board ⟨5, 0⟩ 4 rfl hguard
  have hmod : 4 % (c3big.board.width * c3big.board.height) = 4 := by decide
  rw [hmod] at hib0
  have hginit : c3big.board.tiles.getD 4 Tile.initial = Tile.initial :=
    getD_replicate_initial (2 ^ 31 * 1) 4
  rw [hginit] at hib0
  have hib : c3big.board.insert_bombs ⟨5, 0⟩ [4] = some c3bigPlaced := hib0
  have hrw : c3big.reveal ⟨5, 0⟩ [4]
      = ({ c3big with
           board := c3bigPlaced.calculate_adjacent_bombs
           state := GameState.InProgress } : Engine).revealAfterPlacement ⟨5, 0⟩ := by
    rw [reveal_firstMove c3big ⟨5, 0⟩ [4] rfl, hib, Option.some_bind]
  rw [hrw]
  obtain ⟨c1, c2, c3, c4, c5, c6⟩ := calculate_adjacent_bombs_facts c3bigPlaced
  generalize hB : c3bigPlaced.calculate_adjacent_bombs = B
  rw [hB] at c1 c2 c3 c4
  have hlenB : B.tiles.length = 2 ^ 31 * 1 := by
    have hl := congrArg List.length c1
    simp only [List.length_map] at hl
    rw [hl]
    show (c3big.board.tiles.set 4 { Tile.initial with has_bomb := true }).length = 2 ^ 31 * 1
    rw [List.length_set]
    exact List.length_replicate _ _
  have hwfB : B.WF := by
    constructor
    · rw [hlenB, c3, c4]
      rfl
    · rw [c3, c4]
      decide
  have hposB : B.inBounds ⟨5, 0⟩ = true := by
    rw [inBounds_congr ⟨5, 0⟩ c3 c4]
    decide
  obtain ⟨e', he'⟩ := revealAfterPlacement_some
    { c3big with board := B, state := GameState.InProgress } ⟨5, 0⟩ hwfB hposB
  refine ⟨e', he', ?_⟩
  obtain ⟨r1, _, _, _, _, _⟩ := revealAfterPlacement_preserves _ ⟨5, 0⟩ e' he'
  have h1 : (e'.board.tiles.getD (Position.to_index ⟨4, 0⟩ (2 ^ 31)) Tile.initial).has_bomb
      = (B.tiles.getD (Position.to_index ⟨4, 0⟩ (2 ^ 31)) Tile.initial).has_bomb :=
    proj_getD_of_map_eq Tile.has_bomb r1 _ _
  have h2 : (B.tiles.getD (Position.to_index ⟨4, 0⟩ (2 ^ 31)) Tile.initial).has_bomb
      = (c3bigPlaced.tiles.getD (Position.to_index ⟨4, 0⟩ (2 ^ 31)) Tile.initial).has_bomb :=
    proj_getD_of_map_eq Tile.has_bomb c2 _ _
  have hti : Position.to_index ⟨4, 0⟩ (2 ^ 31) = 4 := by decide
  have hlt : (4 : Nat) < c3big.board.tiles.length := by
    show (4 : Nat) < (List.replicate (2 ^ 31 * 1) Tile.initial).length
    rw [List.length_replicate]
    decide
  have h3 : (c3bigPlaced.tiles.getD 4 Tile.initial).has_bomb = true := by
    show ((c3big.board.tiles.set 4 { Tile.initial with has_bomb := true }).getD 4
        Tile.initial).has_bomb = true
    rw [List.getD_eq_getElem?_getD, List.getElem?_set_self hlt]
    rfl
  rw [h1, h2, hti]
  exact h3

/-- C3 (amended): first-move safety holds whenever the board dimensions
fit in `i32` (width, height < 2^31 — true of every realistic board, and
of all three difficulty presets): for any bomb budget, first-move
coordinate and random samples under which placement terminates, after
the first `reveal` of a fresh game neither the clicked coordinate nor
any of its in-bounds 8-neighbours carries a mine. -/
theorem claim_C3_amended (w h n : Nat) (hw : w < 2 ^ 31) (hh : h < 2 ^ 31)
    (pos : Position) (samples : List Nat) (e' : Engine)
    (hrev : (Engine.new w h n).reveal pos samples = some e') :
    (e'.board.tiles.getD (pos.to_index w) Tile.initial).has_bomb = false ∧
    ∀ off ∈ ADJACENT_OFFSETS,
      (Engine.new w h n).board.inBounds (pos.add off) = true →
      (e'.board.tiles.getD ((pos.add off).to_index w) Tile.initial).has_bomb = false := by
  have hsafe := first_reveal_safe_positions w h n pos samples e' hrev
  constructor
  · exact hsafe pos (List.mem_cons_self _ _)
  · intro off hoff hoffib
    exact hsafe (pos.add off)
      (mem_safe_positions_of_inBounds (Engine.new w h n).board pos off hoff hw hh hoffib)

/-- C3 (witness): the amended safety at the fresh 5×1 board with one
bomb, first reveal (0,0) with sample [3] — the clicked tile and its
in-bounds neighbour (1,0) end bomb-free. -/
theorem claim_C3_witness :
    ((((Engine.new 5 1 1).reveal ⟨0, 0⟩ [3]).getD (Engine.new 0 0 0)).board.tiles.getD
        (Position.to_index ⟨0, 0⟩ 5) Tile.initial).has_bomb = false ∧
    ((((Engine.new 5 1 1).reveal ⟨0, 0⟩ [3]).getD (Engine.new 0 0 0)).board.tiles.getD
        (Position.to_index (Position.add ⟨0, 0⟩ ⟨1, 0⟩) 5) Tile.initial).has_bomb = false := by
  obtain ⟨h1, h2⟩ := claim_C3_amended 5 1 1 (by decide) (by decide) ⟨0, 0⟩ [3]
    (((Engine.new 5 1 1).reveal ⟨0, 0⟩ [3]).getD (Engine.new 0 0 0)) (by decide)
  exact ⟨h1, h2 ⟨1, 0⟩ (by decide) (by decide)⟩
